import Mathlib

/-
  Verification development for the `dynamecs-analyze` timing subsystem of the
  dynamecs repository.  The Rust sources embedded here are:
    - src/dynamecs-analyze/src/span_path.rs   (SpanPath)
    - src/dynamecs-analyze/src/span_tree.rs   (SpanTree, SpanTreeNode)
    - src/dynamecs-analyze/src/timing.rs      (TimingAccumulator, AccumulatedTimings,
                                               step/run scanning, create_timing_tree)
    - src/dynamecs-analyze/src/lib.rs         (Record, Span, create_span_path)
  Machine integers (u64 counts, Duration) are modelled as Nat, timestamps as Int
  (nanoseconds); `OffsetDateTime` subtraction followed by `unsigned_abs` becomes
  `Int.natAbs` of the difference.  HashMaps are modelled as association lists with
  pairwise-distinct keys; theorems quantify over arbitrary entry orders, which
  covers every possible hash-iteration order.
-/

/-- `SpanPath` from span_path.rs: an ordered list of span names. -/
structure SpanPath where
  span_names : List String
deriving DecidableEq, Repr

/-- `SpanPath::depth`: the number of span names that make up this span path. -/
def SpanPath.depth (p : SpanPath) : Nat := p.span_names.length

/-- `SpanPath::span_name`: the last name, if any. -/
def SpanPath.span_name (p : SpanPath) : Option String := p.span_names.getLast?

/-- `SpanPath::parent`: drops the final name; `None` for the empty (root) path. -/
def SpanPath.parent (p : SpanPath) : Option SpanPath :=
  if 0 < p.span_names.length then some ⟨p.span_names.dropLast⟩ else none

/-- Length of the longest common prefix of two name lists; this is the
`zip(..).take_while(eq).count()` pattern used throughout span_path.rs and
span_tree.rs. -/
def commonLen : List String → List String → Nat
  | a :: as, b :: bs => if a = b then commonLen as bs + 1 else 0
  | _, _ => 0

/-- The longest common prefix itself (`SpanPath::common_ancestor`'s
`map_while` loop). -/
def commonPre : List String → List String → List String
  | a :: as, b :: bs => if a = b then a :: commonPre as bs else []
  | _, _ => []

/-- `SpanPath::is_ancestor_of`: the common-prefix count of the two name lists
equals this path's length.  (The source's doc comment: "A path is an ancestor
of itself.") -/
def SpanPath.is_ancestor_of (p q : SpanPath) : Bool :=
  commonLen p.span_names q.span_names == p.span_names.length

/-- `SpanPath::is_parent_of`: shares the whole of `p` and has exactly one more
name. -/
def SpanPath.is_parent_of (p q : SpanPath) : Bool :=
  (commonLen p.span_names q.span_names == p.span_names.length) &&
    (commonLen p.span_names q.span_names + 1 == q.span_names.length)

/-- `SpanPath::common_ancestor`. -/
def SpanPath.common_ancestor (p q : SpanPath) : SpanPath :=
  ⟨commonPre p.span_names q.span_names⟩

/-- `SpanPath::push_span_name`. -/
def SpanPath.push_span_name (p : SpanPath) (s : String) : SpanPath :=
  ⟨p.span_names ++ [s]⟩

/- ## Basic facts about `commonLen` and `commonPre` -/

theorem commonLen_le_left : ∀ a b : List String, commonLen a b ≤ a.length := by
  intro a
  induction a with
  | nil => intro b; cases b <;> simp [commonLen]
  | cons x xs ih =>
    intro b
    cases b with
    | nil => simp [commonLen]
    | cons y ys =>
      by_cases h : x = y <;> simp [commonLen, h]
      exact ih ys

theorem commonLen_le_right : ∀ a b : List String, commonLen a b ≤ b.length := by
  intro a
  induction a with
  | nil => intro b; cases b <;> simp [commonLen]
  | cons x xs ih =>
    intro b
    cases b with
    | nil => simp [commonLen]
    | cons y ys =>
      by_cases h : x = y <;> simp [commonLen, h]
      exact ih ys

theorem commonLen_self : ∀ a : List String, commonLen a a = a.length := by
  intro a
  induction a with
  | nil => simp [commonLen]
  | cons x xs ih => simp [commonLen, ih]

theorem commonLen_eq_left_iff :
    ∀ a b : List String, commonLen a b = a.length ↔ a <+: b := by
  intro a
  induction a with
  | nil =>
    intro b
    constructor
    · intro _; exact ⟨b, rfl⟩
    · intro _; cases b <;> simp [commonLen]
  | cons x xs ih =>
    intro b
    cases b with
    | nil =>
      simp only [commonLen, List.length_cons]
      constructor
      · omega
      · intro h
        rcases h with ⟨t, ht⟩
        simp at ht
    | cons y ys =>
      by_cases h : x = y
      · subst h
        constructor
        · intro hlen
          have hc : commonLen xs ys = xs.length := by
            simp [commonLen] at hlen; omega
          rcases (ih ys).mp hc with ⟨t, ht⟩
          exact ⟨t, by rw [List.cons_append, ht]⟩
        · intro hp
          rcases hp with ⟨t, ht⟩
          have hxs : xs ++ t = ys := by simpa using ht
          have hc : commonLen xs ys = xs.length := (ih ys).mpr ⟨t, hxs⟩
          simp [commonLen, hc]
      · simp only [commonLen, if_neg h, List.length_cons]
        constructor
        · omega
        · intro hp
          rcases hp with ⟨t, ht⟩
          simp at ht
          exact absurd ht.1 h

theorem commonLen_comm : ∀ a b : List String, commonLen a b = commonLen b a := by
  intro a
  induction a with
  | nil => intro b; cases b <;> simp [commonLen]
  | cons x xs ih =>
    intro b
    cases b with
    | nil => simp [commonLen]
    | cons y ys =>
      by_cases h : x = y
      · subst h; simp [commonLen, ih]
      · simp [commonLen, h, Ne.symm h]

theorem commonLen_eq_right :
    ∀ a b : List String, commonLen a b = b.length → b <+: a := by
  intro a b h
  rw [commonLen_comm] at h
  exact (commonLen_eq_left_iff b a).mp h

theorem commonLen_ge_of_pre :
    ∀ w a b : List String, w <+: a → w <+: b → w.length ≤ commonLen a b := by
  intro w
  induction w with
  | nil => intro a b _ _; simp
  | cons x xs ih =>
    intro a b ha hb
    rcases ha with ⟨s, hs⟩
    rcases hb with ⟨t, ht⟩
    subst hs; subst ht
    simpa [commonLen] using ih (xs ++ s) (xs ++ t) ⟨s, rfl⟩ ⟨t, rfl⟩

theorem take_commonLen_eq_left :
    ∀ a b : List String, a.take (commonLen a b) = b.take (commonLen a b) := by
  intro a
  induction a with
  | nil => intro b; cases b <;> simp [commonLen]
  | cons x xs ih =>
    intro b
    cases b with
    | nil => simp [commonLen]
    | cons y ys =>
      by_cases h : x = y
      · subst h; simp [commonLen, ih]
      · simp [commonLen, h]

theorem pre_take {α : Type} (n : Nat) (l : List α) : l.take n <+: l :=
  ⟨l.drop n, l.take_append_drop n⟩

theorem pre_of_pre_of_le {α : Type} {a b l : List α}
    (ha : a <+: l) (hb : b <+: l) (hlen : a.length ≤ b.length) : a <+: b :=
  List.prefix_of_prefix_length_le ha hb hlen

theorem take_eq_of_pre :
    ∀ (w a : List String), w <+: a → a.take w.length = w := by
  intro w a h
  rcases h with ⟨t, ht⟩
  subst ht
  simp

/- ## Claim C1 -/

/-- C1 counterexample: the claim asserts `p.is_ancestor_of(p)` is false for
every `p` (strict-prefix semantics); the code returns `true` on the concrete
path `["a"]` (and indeed on every path). -/
theorem C1_counterexample :
    ¬ ((SpanPath.mk ["a"]).is_ancestor_of (SpanPath.mk ["a"]) = false) := by
  decide

/-- C1 (amended): `is_ancestor_of` is non-strict prefix: it returns true iff
this path's name sequence is a (possibly equal) prefix of the other's; it is
reflexive-TRUE, transitive, and `p.parent().is_ancestor_of(p)` holds for every
non-root `p`. -/
theorem C1_amended :
    (∀ p q : SpanPath, p.is_ancestor_of q = true ↔ p.span_names <+: q.span_names)
    ∧ (∀ p : SpanPath, p.is_ancestor_of p = true)
    ∧ (∀ p q r : SpanPath, p.is_ancestor_of q = true → q.is_ancestor_of r = true →
        p.is_ancestor_of r = true)
    ∧ (∀ p pp : SpanPath, p.parent = some pp → pp.is_ancestor_of p = true) := by
  have hiff : ∀ p q : SpanPath, p.is_ancestor_of q = true ↔ p.span_names <+: q.span_names := by
    intro p q
    rw [SpanPath.is_ancestor_of, Nat.beq_eq_true_eq]
    exact commonLen_eq_left_iff _ _
  refine ⟨hiff, ?_, ?_, ?_⟩
  · intro p
    rw [hiff]
  · intro p q r hpq hqr
    rw [hiff] at hpq hqr ⊢
    exact hpq.trans hqr
  · intro p pp hpar
    rw [SpanPath.parent] at hpar
    split at hpar
    · rw [hiff]
      cases hpar
      exact List.dropLast_prefix _
    · exact absurd hpar (by simp)

/- ## Lexicographic ordering on name lists

Rust's `Ord` for `Vec<String>`/`&[String]` (used by the `sort_by` calls in
span_tree.rs and timing.rs and by `binary_search_by_key`) is lexicographic:
elementwise comparison, first difference decides, otherwise the shorter list
is smaller.  Rust `String` ordering is byte-lexicographic, which for valid
UTF-8 agrees with the codepoint (scalar-value) order used here. -/
def charsCmp : List Char → List Char → Ordering
  | [], [] => .eq
  | [], _ :: _ => .lt
  | _ :: _, [] => .gt
  | a :: as, b :: bs =>
    if a.toNat < b.toNat then .lt
    else if b.toNat < a.toNat then .gt
    else charsCmp as bs

/-- Rust's `Ord` for `String`: lexicographic over the characters. -/
def strCmp (a b : String) : Ordering := charsCmp a.data b.data

theorem char_eq_of_toNat {a b : Char} (h : a.toNat = b.toNat) : a = b :=
  Char.ext (UInt32.ext h)

theorem charsCmp_eq_iff : ∀ a b : List Char, charsCmp a b = .eq ↔ a = b := by
  intro a
  induction a with
  | nil => intro b; cases b <;> simp [charsCmp]
  | cons x xs ih =>
    intro b
    cases b with
    | nil => simp [charsCmp]
    | cons y ys =>
      by_cases h1 : x.toNat < y.toNat
      · simp only [charsCmp, if_pos h1]
        constructor
        · intro habs; cases habs
        · intro he
          injection he with he1 he2
          rw [he1] at h1
          omega
      · by_cases h2 : y.toNat < x.toNat
        · simp only [charsCmp, if_neg h1, if_pos h2]
          constructor
          · intro habs; cases habs
          · intro he
            injection he with he1 he2
            rw [he1] at h2
            omega
        · have hxy : x = y := char_eq_of_toNat (by omega)
          subst hxy
          simp [charsCmp, ih]

theorem charsCmp_self (a : List Char) : charsCmp a a = .eq :=
  (charsCmp_eq_iff a a).mpr rfl

theorem charsCmp_swap : ∀ a b : List Char,
    charsCmp a b = .lt ↔ charsCmp b a = .gt := by
  intro a
  induction a with
  | nil => intro b; cases b <;> simp [charsCmp]
  | cons x xs ih =>
    intro b
    cases b with
    | nil => simp [charsCmp]
    | cons y ys =>
      by_cases h1 : x.toNat < y.toNat
      · have h3 : ¬ y.toNat < x.toNat := by omega
        simp only [charsCmp, if_pos h1, if_neg h3]
      · by_cases h2 : y.toNat < x.toNat
        · simp only [charsCmp, if_neg h1, if_pos h2]
          exact iff_of_false (fun h => Ordering.noConfusion h)
            (fun h => Ordering.noConfusion h)
        · simp only [charsCmp, if_neg h1, if_neg h2]
          exact ih ys

theorem charsCmp_lt_trans : ∀ a b c : List Char,
    charsCmp a b = .lt → charsCmp b c = .lt → charsCmp a c = .lt := by
  intro a
  induction a with
  | nil =>
    intro b c hab hbc
    cases b with
    | nil => exact hbc
    | cons y ys =>
      cases c with
      | nil => simp [charsCmp] at hbc
      | cons z zs => simp [charsCmp]
  | cons x xs ih =>
    intro b c hab hbc
    cases b with
    | nil => simp [charsCmp] at hab
    | cons y ys =>
      cases c with
      | nil => simp [charsCmp] at hbc
      | cons z zs =>
        by_cases hxy : x.toNat < y.toNat
        · by_cases hyz : y.toNat < z.toNat
          · simp [charsCmp, (by omega : x.toNat < z.toNat)]
          · by_cases hzy : z.toNat < y.toNat
            · simp [charsCmp, hyz, hzy] at hbc
            · have : y = z := char_eq_of_toNat (by omega)
              subst this
              simp [charsCmp, hxy]
        · by_cases hyx : y.toNat < x.toNat
          · simp [charsCmp, hxy, hyx] at hab
          · have : x = y := char_eq_of_toNat (by omega)
            subst this
            simp only [charsCmp, if_neg hxy, if_neg hyx] at hab
            by_cases hxz : x.toNat < z.toNat
            · simp [charsCmp, hxz]
            · by_cases hzx : z.toNat < x.toNat
              · simp [charsCmp, hxz, hzx] at hbc
              · have : x = z := char_eq_of_toNat (by omega)
                subst this
                simp only [charsCmp, if_neg hxz, if_neg hzx] at hbc ⊢
                exact ih _ _ hab hbc

theorem strCmp_self (a : String) : strCmp a a = .eq := charsCmp_self a.data

theorem strCmp_eq_iff (a b : String) : strCmp a b = .eq ↔ a = b := by
  rw [strCmp, charsCmp_eq_iff]
  constructor
  · intro h
    cases a
    cases b
    cases h
    rfl
  · intro h
    rw [h]

theorem strCmp_swap (a b : String) : strCmp a b = .lt ↔ strCmp b a = .gt :=
  charsCmp_swap a.data b.data

theorem strCmp_lt_trans {a b c : String}
    (hab : strCmp a b = .lt) (hbc : strCmp b c = .lt) : strCmp a c = .lt :=
  charsCmp_lt_trans a.data b.data c.data hab hbc

/-- The elementwise lexicographic comparison of two name lists. -/
def namesCmp : List String → List String → Ordering
  | [], [] => .eq
  | [], _ :: _ => .lt
  | _ :: _, [] => .gt
  | a :: as, b :: bs =>
    match strCmp a b with
    | .lt => .lt
    | .gt => .gt
    | .eq => namesCmp as bs

/-- The Boolean "less or equal" induced by `namesCmp`, used as the merge-sort
comparator. -/
def namesLE (a b : List String) : Bool :=
  match namesCmp a b with
  | .gt => false
  | _ => true

theorem namesCmp_eq_iff : ∀ a b : List String, namesCmp a b = .eq ↔ a = b := by
  intro a
  induction a with
  | nil => intro b; cases b <;> simp [namesCmp]
  | cons x xs ih =>
    intro b
    cases b with
    | nil => simp [namesCmp]
    | cons y ys =>
      rcases h : strCmp x y with _ | _ | _
      · simp only [namesCmp, h]
        constructor
        · intro habs; cases habs
        · intro he
          injection he with he1 he2
          rw [he1, strCmp_self] at h
          cases h
      · have hxy : x = y := (strCmp_eq_iff x y).mp h
        subst hxy
        simp only [namesCmp, strCmp_self]
        rw [ih ys]
        constructor
        · intro he; rw [he]
        · intro he
          injection he
      · simp only [namesCmp, h]
        constructor
        · intro habs; cases habs
        · intro he
          injection he with he1 he2
          rw [he1, strCmp_self] at h
          cases h

theorem namesCmp_self (a : List String) : namesCmp a a = .eq :=
  (namesCmp_eq_iff a a).mpr rfl

theorem namesCmp_swap : ∀ a b : List String,
    namesCmp a b = .lt ↔ namesCmp b a = .gt := by
  intro a
  induction a with
  | nil => intro b; cases b <;> simp [namesCmp]
  | cons x xs ih =>
    intro b
    cases b with
    | nil => simp [namesCmp]
    | cons y ys =>
      rcases h : strCmp x y with _ | _ | _
      · have h2 : strCmp y x = .gt := (strCmp_swap x y).mp h
        simp [namesCmp, h, h2]
      · have hxy : x = y := (strCmp_eq_iff x y).mp h
        subst hxy
        simp [namesCmp, strCmp_self, ih]
      · have h2 : strCmp y x = .lt := (strCmp_swap y x).mpr h
        simp [namesCmp, h, h2]

theorem namesCmp_lt_trans : ∀ a b c : List String,
    namesCmp a b = .lt → namesCmp b c = .lt → namesCmp a c = .lt := by
  intro a
  induction a with
  | nil =>
    intro b c hab hbc
    cases b with
    | nil => exact hbc
    | cons y ys =>
      cases c with
      | nil => simp [namesCmp] at hbc
      | cons z zs => simp [namesCmp]
  | cons x xs ih =>
    intro b c hab hbc
    cases b with
    | nil => simp [namesCmp] at hab
    | cons y ys =>
      cases c with
      | nil => simp [namesCmp] at hbc
      | cons z zs =>
        rcases hxy : strCmp x y with _ | _ | _
        · rcases hyz : strCmp y z with _ | _ | _
          · have hxz : strCmp x z = .lt := strCmp_lt_trans hxy hyz
            simp [namesCmp, hxz]
          · have : y = z := (strCmp_eq_iff _ _).mp hyz
            subst this
            simp [namesCmp, hxy]
          · simp [namesCmp, hyz] at hbc
        · have : x = y := (strCmp_eq_iff _ _).mp hxy
          subst this
          simp only [namesCmp, strCmp_self] at hab
          rcases hxz : strCmp x z with _ | _ | _
          · simp [namesCmp, hxz]
          · have : x = z := (strCmp_eq_iff _ _).mp hxz
            subst this
            simp only [namesCmp, strCmp_self] at hbc ⊢
            exact ih _ _ hab hbc
          · simp [namesCmp, hxz] at hbc
        · simp [namesCmp, hxy] at hab

theorem namesCmp_lt_asymm {a b : List String}
    (h : namesCmp a b = .lt) : namesCmp b a ≠ .lt := by
  intro h2
  have := namesCmp_lt_trans a b a h h2
  rw [namesCmp_self] at this
  exact absurd this (by simp)

theorem namesLE_iff (a b : List String) :
    namesLE a b = true ↔ namesCmp a b ≠ .gt := by
  rw [namesLE]
  rcases h : namesCmp a b <;> simp [h]

theorem namesCmp_total (a b : List String) :
    namesCmp a b = .gt → namesCmp b a = .lt := by
  intro h
  exact (namesCmp_swap b a).mpr h

theorem namesLE_trans : ∀ (a b c : List String),
    namesLE a b = true → namesLE b c = true → namesLE a c = true := by
  intro a b c hab hbc
  rw [namesLE_iff] at hab hbc ⊢
  intro hac
  have hca : namesCmp c a = .lt := namesCmp_total _ _ hac
  rcases h1 : namesCmp a b with h | h | h
  · rcases h2 : namesCmp b c with g | g | g
    · exact absurd (namesCmp_lt_trans _ _ _ (namesCmp_lt_trans _ _ _ h1 h2) hca)
        (by rw [namesCmp_self]; simp)
    · have : b = c := (namesCmp_eq_iff _ _).mp h2
      subst this
      exact absurd (namesCmp_lt_trans _ _ _ h1 hca) (by rw [namesCmp_self]; simp)
    · exact hbc h2
  · have : a = b := (namesCmp_eq_iff _ _).mp h1
    subst this
    exact hbc hac
  · exact hab h1

theorem namesLE_total (a b : List String) :
    (namesLE a b || namesLE b a) = true := by
  rw [Bool.or_eq_true, namesLE_iff, namesLE_iff]
  by_cases h : namesCmp a b = .gt
  · right
    have := namesCmp_total _ _ h
    simp [this]
  · left; exact h

theorem namesCmp_lt_of_strict_pre {a b : List String}
    (hpre : a <+: b) (hne : a ≠ b) : namesCmp a b = .lt := by
  induction a generalizing b with
  | nil =>
    cases b with
    | nil => exact absurd rfl hne
    | cons y ys => simp [namesCmp]
  | cons x xs ih =>
    rcases hpre with ⟨t, ht⟩
    subst ht
    simp only [List.cons_append, namesCmp, strCmp_self]
    apply ih
    · exact ⟨t, rfl⟩
    · intro he
      exact hne (congrArg (List.cons x) he)

theorem namesLE_of_pre {a b : List String} (hpre : a <+: b) :
    namesLE a b = true := by
  rw [namesLE_iff]
  by_cases hne : a = b
  · subst hne; rw [namesCmp_self]; simp
  · rw [namesCmp_lt_of_strict_pre hpre hne]; simp

/-- The sandwich property: if `w` is a prefix of `q` and `w ≤ p ≤ q`
lexicographically, then `w` is a prefix of `p`. -/
theorem pre_sandwich : ∀ (w p q : List String), w <+: q →
    namesLE w p = true → namesLE p q = true → w <+: p := by
  intro w
  induction w with
  | nil => intro p q _ _ _; exact ⟨p, rfl⟩
  | cons x xs ih =>
    intro p q hpre hwp hpq
    rcases hpre with ⟨t, ht⟩
    subst ht
    cases p with
    | nil =>
      rw [namesLE_iff] at hwp
      simp [namesCmp] at hwp
    | cons y ys =>
      rw [namesLE_iff] at hwp hpq
      rcases hxy : strCmp x y with _ | _ | _
      · have h2 : strCmp y x = .gt := (strCmp_swap x y).mp hxy
        simp only [List.cons_append, namesCmp, h2] at hpq
        exact absurd rfl hpq
      · have : x = y := (strCmp_eq_iff _ _).mp hxy
        subst this
        simp only [List.cons_append, namesCmp, strCmp_self] at hwp hpq
        have hxs : xs <+: ys :=
          ih ys (xs ++ t) ⟨t, rfl⟩ (by rw [namesLE_iff]; exact hwp)
            (by rw [namesLE_iff]; exact hpq)
        rcases hxs with ⟨s, hs⟩
        exact ⟨s, by rw [List.cons_append, hs]⟩
      · simp only [List.cons_append, namesCmp, hxy] at hwp
        exact absurd rfl hwp

/-- Witness for C1 (amended), instantiating each conjunct at concrete paths. -/
theorem C1_amended_witness :
    (SpanPath.mk ["a"]).is_ancestor_of (SpanPath.mk ["a", "b"]) = true ∧
    (SpanPath.mk ["a", "b"]).is_ancestor_of (SpanPath.mk ["a", "b"]) = true ∧
    (SpanPath.mk ["a"]).is_ancestor_of (SpanPath.mk ["a", "b", "c"]) = true := by
  refine ⟨?_, C1_amended.2.1 _, ?_⟩
  · exact (C1_amended.1 _ _).mpr ⟨["b"], rfl⟩
  · exact C1_amended.2.2.1 (SpanPath.mk ["a"]) (SpanPath.mk ["a", "b"])
      (SpanPath.mk ["a", "b", "c"]) (by decide) (by decide)

/- ## SpanTree (span_tree.rs) -/

/-- The distinct error cases of `SpanTree::try_from_depth_first_ordering`.
The source carries them as message strings: `EmptyInput` = "there must be at
least one path in the tree", `NotUnderRoot` = "first path is not an ancestor
of all other nodes", `MissingIntermediateNode` = "intermediate nodes missing",
`DuplicatePath` = "duplicate paths detected"; `UnreachableDepth` marks the
source's `unreachable!()` arm for `path.depth() < num_common_names`. -/
inductive SpanTreeError where
  | EmptyInput
  | NotUnderRoot
  | MissingIntermediateNode
  | DuplicatePath
  | UnreachableDepth
deriving DecidableEq, Repr

/-- `SpanTree<Payload>` from span_tree.rs: parallel vectors of paths (in
depth-first order) and payloads. -/
structure SpanTree (β : Type) where
  tree_depth_first : List SpanPath
  payloads : List β
deriving DecidableEq, Repr

/-- The scanning loop of `try_from_depth_first_ordering`: a name stack is
matched against each path in turn.  On success it returns the final stack.
(`path.span_name().unwrap()` is modelled by `getLastD ""`; the push branch
guarantees `path.depth = n + 1 ≥ 1`, so the default is never taken.) -/
def tryFromLoop (rootDepth : Nat) : List String → List SpanPath → Except SpanTreeError (List String)
  | stack, [] => .ok stack
  | stack, path :: rest =>
    let n := commonLen stack path.span_names
    if n < rootDepth then .error .NotUnderRoot
    else if n + 1 < path.depth then .error .MissingIntermediateNode
    else if path.depth = n + 1 then
      tryFromLoop rootDepth (stack.take n ++ [path.span_names.getLastD ""]) rest
    else if path.depth = n then .error .DuplicatePath
    else .error .UnreachableDepth

/-- `SpanTree::try_from_depth_first_ordering`. -/
def SpanTree.try_from_depth_first_ordering {β : Type} (paths : List SpanPath)
    (payloads : List β) : Except SpanTreeError (SpanTree β) :=
  match paths with
  | [] => .error .EmptyInput
  | root :: others =>
    match tryFromLoop root.depth root.span_names others with
    | .error e => .error e
    | .ok _ => .ok ⟨root :: others, payloads⟩

/-- One step of the scan, expressed as a classification: `some e` when the
path triggers error `e`, `none` when it is accepted. -/
def stepErr (rootDepth : Nat) (stack : List String) (path : SpanPath) : Option SpanTreeError :=
  let n := commonLen stack path.span_names
  if n < rootDepth then some .NotUnderRoot
  else if n + 1 < path.depth then some .MissingIntermediateNode
  else if path.depth = n + 1 then none
  else if path.depth = n then some .DuplicatePath
  else some .UnreachableDepth

/-- The stack after an accepted path: truncate to the shared length and push
the path's last name. -/
def stepStack (stack : List String) (path : SpanPath) : List String :=
  stack.take (commonLen stack path.span_names) ++ [path.span_names.getLastD ""]

theorem tryFromLoop_cons (rd : Nat) (st : List String) (p : SpanPath) (rest : List SpanPath) :
    tryFromLoop rd st (p :: rest) =
      match stepErr rd st p with
      | some e => .error e
      | none => tryFromLoop rd (stepStack st p) rest := by
  simp only [tryFromLoop, stepErr, stepStack]
  split_ifs <;> rfl

theorem tryFromLoop_error_iff (rd : Nat) :
    ∀ (l : List SpanPath) (st0 : List String) (e : SpanTreeError),
    tryFromLoop rd st0 l = .error e ↔
      ∃ pre p post st, l = pre ++ p :: post ∧
        tryFromLoop rd st0 pre = .ok st ∧
        stepErr rd st p = some e := by
  intro l
  induction l with
  | nil =>
    intro st0 e
    simp only [tryFromLoop]
    constructor
    · intro h; cases h
    · rintro ⟨pre, p, post, st, habs, -, -⟩
      exact absurd habs (by simp)
  | cons q rest ih =>
    intro st0 e
    rw [tryFromLoop_cons]
    rcases h : stepErr rd st0 q with _ | e0
    · rw [ih]
      constructor
      · rintro ⟨pre, p, post, st, hsplit, hok, herr⟩
        refine ⟨q :: pre, p, post, st, by rw [hsplit, List.cons_append], ?_, herr⟩
        rw [tryFromLoop_cons, h]
        exact hok
      · rintro ⟨pre, p, post, st, hsplit, hok, herr⟩
        cases pre with
        | nil =>
          simp only [List.nil_append, List.cons.injEq] at hsplit
          rcases hsplit with ⟨hq, -⟩
          subst hq
          simp only [tryFromLoop] at hok
          cases hok
          rw [h] at herr
          cases herr
        | cons q2 pre2 =>
          simp only [List.cons_append, List.cons.injEq] at hsplit
          rcases hsplit with ⟨hq, hrest⟩
          subst hq
          rw [tryFromLoop_cons, h] at hok
          exact ⟨pre2, p, post, st, hrest, hok, herr⟩
    · constructor
      · intro he
        refine ⟨[], q, rest, st0, rfl, rfl, ?_⟩
        cases he
        exact h
      · rintro ⟨pre, p, post, st, hsplit, hok, herr⟩
        cases pre with
        | nil =>
          simp only [List.nil_append, List.cons.injEq] at hsplit
          cases hok
          rw [hsplit.1] at h
          rw [h] at herr
          cases herr
          rfl
        | cons q2 pre2 =>
          simp only [List.cons_append, List.cons.injEq] at hsplit
          rcases hsplit with ⟨hq, -⟩
          subst hq
          rw [tryFromLoop_cons, h] at hok
          cases hok

theorem tryFrom_cons_error_iff {β : Type} (root : SpanPath) (others : List SpanPath)
    (payloads : List β) (e : SpanTreeError) :
    SpanTree.try_from_depth_first_ordering (root :: others) payloads = .error e ↔
      tryFromLoop root.depth root.span_names others = .error e := by
  rw [SpanTree.try_from_depth_first_ordering]
  rcases h : tryFromLoop root.depth root.span_names others with e2 | st <;> simp [h]

theorem stepErr_notUnderRoot_iff (rd : Nat) (st : List String) (p : SpanPath) :
    stepErr rd st p = some .NotUnderRoot ↔ commonLen st p.span_names < rd := by
  rw [stepErr]
  split_ifs with h1 h2 h3 h4 <;> simp <;> omega

theorem stepErr_missing_iff (rd : Nat) (st : List String) (p : SpanPath) :
    stepErr rd st p = some .MissingIntermediateNode ↔
      rd ≤ commonLen st p.span_names ∧ commonLen st p.span_names + 1 < p.depth := by
  rw [stepErr]
  split_ifs with h1 h2 h3 h4 <;> simp <;> omega

theorem stepErr_duplicate_iff (rd : Nat) (st : List String) (p : SpanPath) :
    stepErr rd st p = some .DuplicatePath ↔
      rd ≤ commonLen st p.span_names ∧ p.depth = commonLen st p.span_names := by
  rw [stepErr]
  split_ifs with h1 h2 h3 h4 <;> simp <;> omega

/-- C3: `try_from_depth_first_ordering` fails with `EmptyInput` iff the path
list is empty; otherwise, scanning the remaining paths in input order against
the evolving name stack, the first offending path determines the error:
`NotUnderRoot` when its shared-prefix length with the stack is below the first
path's depth, `MissingIntermediateNode` when (that check passing) its depth
exceeds the shared-prefix length by more than 1, `DuplicatePath` when its
depth equals the shared-prefix length; on success the paths and payloads are
stored exactly as given. -/
theorem C3_theorem :
    (∀ payloads : List Nat,
      SpanTree.try_from_depth_first_ordering ([] : List SpanPath) payloads
        = .error .EmptyInput)
    ∧ (∀ (paths : List SpanPath) (payloads : List Nat),
      SpanTree.try_from_depth_first_ordering paths payloads = .error .EmptyInput →
        paths = [])
    ∧ (∀ (root : SpanPath) (others : List SpanPath) (payloads : List Nat),
      SpanTree.try_from_depth_first_ordering (root :: others) payloads
          = .error .NotUnderRoot ↔
        ∃ pre p post st, others = pre ++ p :: post ∧
          tryFromLoop root.depth root.span_names pre = .ok st ∧
          commonLen st p.span_names < root.depth)
    ∧ (∀ (root : SpanPath) (others : List SpanPath) (payloads : List Nat),
      SpanTree.try_from_depth_first_ordering (root :: others) payloads
          = .error .MissingIntermediateNode ↔
        ∃ pre p post st, others = pre ++ p :: post ∧
          tryFromLoop root.depth root.span_names pre = .ok st ∧
          root.depth ≤ commonLen st p.span_names ∧
          commonLen st p.span_names + 1 < p.depth)
    ∧ (∀ (root : SpanPath) (others : List SpanPath) (payloads : List Nat),
      SpanTree.try_from_depth_first_ordering (root :: others) payloads
          = .error .DuplicatePath ↔
        ∃ pre p post st, others = pre ++ p :: post ∧
          tryFromLoop root.depth root.span_names pre = .ok st ∧
          root.depth ≤ commonLen st p.span_names ∧
          p.depth = commonLen st p.span_names)
    ∧ (∀ (paths : List SpanPath) (payloads : List Nat) (t : SpanTree Nat),
      SpanTree.try_from_depth_first_ordering paths payloads = .ok t →
        t.tree_depth_first = paths ∧ t.payloads = payloads) := by
  refine ⟨?_, ?_, ?_, ?_, ?_, ?_⟩
  · intro payloads
    rfl
  · intro paths payloads h
    cases paths with
    | nil => rfl
    | cons root others =>
      rw [tryFrom_cons_error_iff] at h
      rw [tryFromLoop_error_iff] at h
      rcases h with ⟨pre, p, post, st, -, -, herr⟩
      exfalso
      rw [stepErr] at herr
      split_ifs at herr <;> cases herr
  · intro root others payloads
    rw [tryFrom_cons_error_iff, tryFromLoop_error_iff]
    constructor
    · rintro ⟨pre, p, post, st, hs, hok, herr⟩
      exact ⟨pre, p, post, st, hs, hok, (stepErr_notUnderRoot_iff _ _ _).mp herr⟩
    · rintro ⟨pre, p, post, st, hs, hok, herr⟩
      exact ⟨pre, p, post, st, hs, hok, (stepErr_notUnderRoot_iff _ _ _).mpr herr⟩
  · intro root others payloads
    rw [tryFrom_cons_error_iff, tryFromLoop_error_iff]
    constructor
    · rintro ⟨pre, p, post, st, hs, hok, herr⟩
      rcases (stepErr_missing_iff _ _ _).mp herr with ⟨h1, h2⟩
      exact ⟨pre, p, post, st, hs, hok, h1, h2⟩
    · rintro ⟨pre, p, post, st, hs, hok, h1, h2⟩
      exact ⟨pre, p, post, st, hs, hok, (stepErr_missing_iff _ _ _).mpr ⟨h1, h2⟩⟩
  · intro root others payloads
    rw [tryFrom_cons_error_iff, tryFromLoop_error_iff]
    constructor
    · rintro ⟨pre, p, post, st, hs, hok, herr⟩
      rcases (stepErr_duplicate_iff _ _ _).mp herr with ⟨h1, h2⟩
      exact ⟨pre, p, post, st, hs, hok, h1, h2⟩
    · rintro ⟨pre, p, post, st, hs, hok, h1, h2⟩
      exact ⟨pre, p, post, st, hs, hok, (stepErr_duplicate_iff _ _ _).mpr ⟨h1, h2⟩⟩
  · intro paths payloads t h
    cases paths with
    | nil => cases h
    | cons root others =>
      rw [SpanTree.try_from_depth_first_ordering] at h
      rcases h2 : tryFromLoop root.depth root.span_names others with e | st
      · rw [h2] at h; cases h
      · rw [h2] at h
        cases h
        exact ⟨rfl, rfl⟩

/-- Witness for C3: the empty input errs with `EmptyInput`, and a concrete
successful construction stores its paths/payloads verbatim. -/
theorem C3_witness :
    SpanTree.try_from_depth_first_ordering ([] : List SpanPath) ([] : List Nat)
        = .error .EmptyInput
    ∧ (SpanTree.mk [SpanPath.mk ["run"]] [7] : SpanTree Nat).tree_depth_first
        = [SpanPath.mk ["run"]] :=
  ⟨C3_theorem.1 [],
    (C3_theorem.2.2.2.2.2 [SpanPath.mk ["run"]] [7] (SpanTree.mk [SpanPath.mk ["run"]] [7]) rfl).1⟩

/- ## Facts about accepted scan steps -/

theorem pre_length_lt {a b : List String} (hpre : a <+: b) (hne : a ≠ b) :
    a.length < b.length := by
  rcases hpre with ⟨t, ht⟩
  subst ht
  cases t with
  | nil => exact absurd (by simp) hne
  | cons y ys => simp

theorem dropLast_append_getLastD {α : Type} :
    ∀ (l : List α) (d : α), l ≠ [] → l.dropLast ++ [l.getLastD d] = l := by
  intro l
  induction l with
  | nil => intro d h; exact absurd rfl h
  | cons x t ih =>
    intro d _
    cases t with
    | nil => rfl
    | cons y t2 =>
      show x :: ((y :: t2).dropLast ++ [(y :: t2).getLastD x]) = x :: y :: t2
      rw [ih x (by simp)]

theorem dropLast_eq_take_names (l : List String) :
    l.dropLast = l.take (l.length - 1) := by
  rw [List.dropLast_eq_take]

/-- An accepted scan step: the stack becomes the accepted path's names, the
path's parent equals the old stack truncated to the shared length, the shared
length is at least the root depth, and the path is one level deeper than the
shared portion. -/
theorem stepErr_none_facts (rd : Nat) (stack : List String) (p : SpanPath)
    (h : stepErr rd stack p = none) :
    stepStack stack p = p.span_names ∧
    p.span_names.dropLast = stack.take (commonLen stack p.span_names) ∧
    rd ≤ commonLen stack p.span_names ∧
    p.span_names.length = commonLen stack p.span_names + 1 := by
  simp only [stepErr] at h
  by_cases h1 : commonLen stack p.span_names < rd
  · rw [if_pos h1] at h; cases h
  rw [if_neg h1] at h
  by_cases h2 : commonLen stack p.span_names + 1 < p.depth
  · rw [if_pos h2] at h; cases h
  rw [if_neg h2] at h
  by_cases h3 : p.depth = commonLen stack p.span_names + 1
  case neg =>
    rw [if_neg h3] at h
    split_ifs at h
  case pos =>
    have hlen : p.span_names.length = commonLen stack p.span_names + 1 := h3
    have hne : p.span_names ≠ [] := by
      intro habs
      rw [habs] at hlen
      simp at hlen
    have htake : stack.take (commonLen stack p.span_names)
        = p.span_names.take (commonLen stack p.span_names) :=
      take_commonLen_eq_left stack p.span_names
    have hdrop : p.span_names.dropLast = stack.take (commonLen stack p.span_names) := by
      rw [dropLast_eq_take_names, hlen]
      simp only [Nat.add_sub_cancel]
      rw [htake]
    refine ⟨?_, hdrop, by omega, hlen⟩
    rw [stepStack, ← hdrop]
    exact dropLast_append_getLastD p.span_names "" hne

/- ## C6 core: scanning a sorted, parent-closed, root-prefixed path list succeeds -/

theorem tryFromLoop_ok_aux :
    ∀ (rest P : List SpanPath) (rootN : List String) (prev : SpanPath),
    List.Pairwise (fun a b => namesCmp a.span_names b.span_names = .lt) (P ++ rest) →
    (∀ q ∈ P ++ rest, rootN <+: q.span_names) →
    (∀ q ∈ P ++ rest, q.span_names ≠ rootN →
       q.span_names.dropLast ∈ (P ++ rest).map SpanPath.span_names) →
    prev ∈ P →
    (∀ x ∈ P, namesLE x.span_names prev.span_names = true) →
    ∃ st, tryFromLoop rootN.length prev.span_names rest = .ok st := by
  intro rest
  induction rest with
  | nil =>
    intro P rootN prev _ _ _ _ _
    exact ⟨prev.span_names, rfl⟩
  | cons q rest2 ih =>
    intro P rootN prev hpw hall hclosed hprevP hPle
    -- prev < q
    have hcross : ∀ a ∈ P, ∀ b ∈ q :: rest2, namesCmp a.span_names b.span_names = .lt :=
      (List.pairwise_append.mp hpw).2.2
    have hPq : namesCmp prev.span_names q.span_names = .lt :=
      hcross prev hprevP q (by simp)
    have hqmem : q ∈ P ++ q :: rest2 := by simp
    have hqroot : rootN <+: q.span_names := hall q hqmem
    have hprevroot : rootN <+: prev.span_names :=
      hall prev (List.mem_append_left _ hprevP)
    -- q is not the root path
    have hqne : q.span_names ≠ rootN := by
      intro habs
      have hle : namesLE q.span_names prev.span_names = true := by
        rw [habs] at *
        exact namesLE_of_pre hprevroot
      rw [namesLE_iff] at hle
      exact hle ((namesCmp_swap _ _).mp hPq)
    -- q's parent (dropLast) is somewhere in the whole list
    have hw := hclosed q hqmem hqne
    have hqnil : q.span_names ≠ [] := by
      intro habs
      apply hqne
      rw [habs]
      rcases hqroot with ⟨t, ht⟩
      rw [habs] at ht
      cases rootN with
      | nil => rfl
      | cons r rs => simp at ht
    have hwpre : q.span_names.dropLast <+: q.span_names := List.dropLast_prefix _
    have hwne : q.span_names.dropLast ≠ q.span_names := by
      intro habs
      have := congrArg List.length habs
      rw [List.length_dropLast] at this
      have : q.span_names.length = 0 := by omega
      exact hqnil (List.length_eq_zero.mp this)
    have hwltq : namesCmp q.span_names.dropLast q.span_names = .lt :=
      namesCmp_lt_of_strict_pre hwpre hwne
    -- q's parent is ≤ prev
    have hwle : namesLE q.span_names.dropLast prev.span_names = true := by
      rw [List.map_append, List.mem_append] at hw
      rcases hw with hinP | hinRest
      · rcases List.mem_map.mp hinP with ⟨x, hxP, hxw⟩
        rw [← hxw]
        exact hPle x hxP
      · rcases List.mem_map.mp hinRest with ⟨x, hxR, hxw⟩
        cases List.mem_cons.mp hxR with
        | inl hxq =>
          rw [hxq] at hxw
          exact absurd hxw.symm hwne
        | inr hxrest2 =>
          exfalso
          have hqx : namesCmp q.span_names x.span_names = .lt := by
            rcases List.pairwise_append.mp hpw with ⟨-, hqrest, -⟩
            exact (List.pairwise_cons.mp hqrest).1 x hxrest2
          rw [hxw] at hqx
          exact namesCmp_lt_asymm hwltq hqx
    -- sandwich: parent of q is a prefix of prev
    have hwprev : q.span_names.dropLast <+: prev.span_names := by
      apply pre_sandwich _ _ q.span_names hwpre hwle
      rw [namesLE_iff, hPq]
      simp
    -- the shared length between prev and q is exactly |q| - 1
    have hn1 : q.span_names.length - 1 ≤ commonLen prev.span_names q.span_names := by
      have := commonLen_ge_of_pre q.span_names.dropLast prev.span_names q.span_names
        hwprev hwpre
      rw [List.length_dropLast] at this
      exact this
    have hn2 : commonLen prev.span_names q.span_names ≠ q.span_names.length := by
      intro habs
      have hqprev : q.span_names <+: prev.span_names := commonLen_eq_right _ _ habs
      have : namesLE q.span_names prev.span_names = true := namesLE_of_pre hqprev
      rw [namesLE_iff] at this
      exact this ((namesCmp_swap _ _).mp hPq)
    have hn3 : commonLen prev.span_names q.span_names ≤ q.span_names.length :=
      commonLen_le_right _ _
    have hnval : commonLen prev.span_names q.span_names = q.span_names.length - 1 := by
      omega
    have hrootlen : rootN.length < q.span_names.length :=
      pre_length_lt hqroot (fun h => hqne h.symm)
    -- the scan step accepts q
    have hstep : stepErr rootN.length prev.span_names q = none := by
      rw [stepErr]
      have hq1 : ¬ (commonLen prev.span_names q.span_names < rootN.length) := by
        rw [hnval]; omega
      have hq2 : ¬ (commonLen prev.span_names q.span_names + 1 < q.depth) := by
        rw [hnval, SpanPath.depth]; omega
      have hq3 : q.depth = commonLen prev.span_names q.span_names + 1 := by
        rw [hnval, SpanPath.depth]; omega
      rw [if_neg hq1, if_neg hq2, if_pos hq3]
    have hstack : stepStack prev.span_names q = q.span_names :=
      (stepErr_none_facts _ _ _ hstep).1
    rw [tryFromLoop_cons, hstep, hstack]
    -- recurse with q appended to the processed list
    have hassoc : (P ++ [q]) ++ rest2 = P ++ q :: rest2 := by
      rw [List.append_assoc]; rfl
    apply ih (P ++ [q]) rootN q
    · rw [hassoc]; exact hpw
    · rw [hassoc]; exact hall
    · rw [hassoc]; exact hclosed
    · simp
    · intro x hx
      rcases List.mem_append.mp hx with hxP | hxq
      · apply namesLE_trans x.span_names prev.span_names q.span_names (hPle x hxP)
        rw [namesLE_iff, hPq]
        simp
      · have : x = q := by simpa using hxq
        rw [this, namesLE_iff, namesCmp_self]
        simp

/- ## DirectStats and the timing-tree construction pipeline (timing.rs) -/

/-- `DirectStats` from timing.rs: accumulated duration (modelled in
nanoseconds as a Nat; `std::time::Duration` addition is exact) and the
completed-invocation count (u64). -/
structure DirectStats where
  duration : Nat
  count : Nat
deriving DecidableEq, Repr

/-- `DirectStats::from_single_duration`. -/
def DirectStats.from_single_duration (d : Nat) : DirectStats := ⟨d, 1⟩

/-- `DirectStats::combine_mut` (self is the accumulator, returns the updated
value). -/
def DirectStats.combine_mut (s o : DirectStats) : DirectStats :=
  ⟨s.duration + o.duration, s.count + o.count⟩

/-- Association-list lookup, modelling `HashMap::get`/`contains_key`.  Keys
are kept pairwise distinct. -/
def alookup {β : Type} : List (SpanPath × β) → SpanPath → Option β
  | [], _ => none
  | (k, v) :: rest, key => if k = key then some v else alookup rest key

/-- The key list of an association map. -/
def akeys {β : Type} (m : List (SpanPath × β)) : List SpanPath := m.map Prod.fst

/-- `HashMap::contains_key`. -/
def acontains {β : Type} (m : List (SpanPath × β)) (key : SpanPath) : Bool :=
  (alookup m key).isSome

/-- The common-ancestor fold of `create_timing_tree`: folds
`SpanPath::common_ancestor` over all keys starting from `None`. -/
def commonAncestorOfKeys (stats : List (SpanPath × DirectStats)) : Option SpanPath :=
  stats.foldl
    (fun acc pr =>
      match acc with
      | none => some pr.1
      | some c => some (c.common_ancestor pr.1))
    none

theorem parent_length_lt {p pp : SpanPath} (h : p.parent = some pp) :
    pp.span_names.length < p.span_names.length := by
  rw [SpanPath.parent] at h
  split at h
  · cases h
    simp only [List.length_dropLast]
    omega
  · cases h

/-- The intermediate-ancestor insertion loop of `create_timing_tree`,
structurally recursive on a fuel bound (each `parent()` step shortens the
path by exactly one name, so `path.span_names.length` steps always
suffice). -/
def insertAncestorsFromFuel (commonDepth : Nat) :
    Nat → SpanPath → List (SpanPath × Option DirectStats)
    → List (SpanPath × Option DirectStats)
  | 0, _, m => m
  | fuel + 1, path, m =>
    match path.parent with
    | none => m
    | some pp =>
      if pp.depth < commonDepth then m
      else insertAncestorsFromFuel commonDepth fuel pp
        (if acontains m pp then m else m ++ [(pp, none)])

/-- The intermediate-ancestor insertion loop of `create_timing_tree`: walk the
parent chain of `path`, inserting each missing ancestor with payload `None`,
stopping when the parent would be shallower than the common ancestor. -/
def insertAncestorsFrom (commonDepth : Nat) (path : SpanPath)
    (m : List (SpanPath × Option DirectStats)) : List (SpanPath × Option DirectStats) :=
  insertAncestorsFromFuel commonDepth path.span_names.length path m

/-- The map-building phase of `AccumulatedTimings::create_timing_tree`:
wrap every recorded entry in `Some`, insert all intermediate ancestors, and
finally insert the common ancestor itself if absent. -/
def buildMapC (stats : List (SpanPath × DirectStats)) : List (SpanPath × Option DirectStats) :=
  let base := stats.map (fun pr => (pr.1, some pr.2))
  match commonAncestorOfKeys stats with
  | none => base
  | some ca =>
    let m2 := stats.foldl (fun m pr => insertAncestorsFrom ca.depth pr.1 m) base
    if acontains m2 ca then m2 else m2 ++ [(ca, none)]

/-- The pair ordering used by the `sort_by` calls: compare the path
components' name sequences. -/
def pairLE {β : Type} (x y : SpanPath × β) : Prop :=
  namesLE x.1.span_names y.1.span_names = true

instance pairLE_dec {β : Type} : DecidableRel (@pairLE β) :=
  fun x y => inferInstanceAs (Decidable (_ = true))

instance pairLE_total {β : Type} : IsTotal (SpanPath × β) pairLE :=
  ⟨fun x y => by
    rcases Bool.or_eq_true_iff.mp (namesLE_total x.1.span_names y.1.span_names) with h | h
    · exact Or.inl h
    · exact Or.inr h⟩

instance pairLE_trans {β : Type} : IsTrans (SpanPath × β) pairLE :=
  ⟨fun x y z => namesLE_trans _ _ _⟩

/-- The pair-sorting step (`sort_by` on `span_names` with Rust's
lexicographic slice ordering).  Rust's `sort_by` contract is "stable sort";
a stable insertion sort produces the same list as any other stable sort, and
stays kernel-reducible. -/
def sortPairsByNames {β : Type} (m : List (SpanPath × β)) : List (SpanPath × β) :=
  m.insertionSort pairLE

/-- The tree-building step of `create_timing_tree`: build the map, sort its
entries depth-first by name sequence, unzip and hand the result to
`try_from_depth_first_ordering` (whose failure the source turns into a panic
via `expect`). -/
def createTimingTreeStep (stats : List (SpanPath × DirectStats)) :
    Except SpanTreeError (SpanTree (Option DirectStats)) :=
  let pairs := sortPairsByNames (buildMapC stats)
  SpanTree.try_from_depth_first_ordering (pairs.map Prod.fst) (pairs.map Prod.snd)

/- ## Key-set facts for the map-building phase -/

theorem commonPre_pre_left : ∀ a b : List String, commonPre a b <+: a := by
  intro a
  induction a with
  | nil => intro b; cases b <;> simp [commonPre]
  | cons x xs ih =>
    intro b
    cases b with
    | nil => simp [commonPre]
    | cons y ys =>
      by_cases h : x = y
      · subst h
        have hred : commonPre (x :: xs) (x :: ys) = x :: commonPre xs ys := by
          simp [commonPre]
        rw [hred]
        rcases ih ys with ⟨t, ht⟩
        exact ⟨t, by rw [List.cons_append, ht]⟩
      · simp [commonPre, h]

theorem commonPre_pre_right : ∀ a b : List String, commonPre a b <+: b := by
  intro a
  induction a with
  | nil => intro b; cases b <;> simp [commonPre]
  | cons x xs ih =>
    intro b
    cases b with
    | nil => simp [commonPre]
    | cons y ys =>
      by_cases h : x = y
      · subst h
        have hred : commonPre (x :: xs) (x :: ys) = x :: commonPre xs ys := by
          simp [commonPre]
        rw [hred]
        rcases ih ys with ⟨t, ht⟩
        exact ⟨t, by rw [List.cons_append, ht]⟩
      · simp [commonPre, h]

theorem span_path_eq_of_names {p q : SpanPath}
    (h : p.span_names = q.span_names) : p = q := by
  cases p; cases q; cases h; rfl

theorem caFold_aux :
    ∀ (l : List (SpanPath × DirectStats)) (c : SpanPath),
    ∃ r, l.foldl
        (fun acc pr =>
          match acc with
          | none => some pr.1
          | some c2 => some (c2.common_ancestor pr.1))
        (some c) = some r ∧
      r.span_names <+: c.span_names ∧
      ∀ pr ∈ l, r.span_names <+: pr.1.span_names := by
  intro l
  induction l with
  | nil =>
    intro c
    exact ⟨c, rfl, List.prefix_refl _, by simp⟩
  | cons pr rest ih =>
    intro c
    rcases ih (c.common_ancestor pr.1) with ⟨r, hfold, hrc, hrall⟩
    refine ⟨r, hfold, ?_, ?_⟩
    · exact hrc.trans (commonPre_pre_left _ _)
    · intro pr2 hpr2
      rcases List.mem_cons.mp hpr2 with h | h
      · rw [h]
        exact hrc.trans (commonPre_pre_right _ _)
      · exact hrall pr2 h

theorem commonAncestorOfKeys_cons (pr : SpanPath × DirectStats)
    (rest : List (SpanPath × DirectStats)) :
    ∃ ca, commonAncestorOfKeys (pr :: rest) = some ca ∧
      ∀ q ∈ pr :: rest, ca.span_names <+: q.1.span_names := by
  rcases caFold_aux rest pr.1 with ⟨r, hfold, hrc, hrall⟩
  refine ⟨r, hfold, ?_⟩
  intro q hq
  rcases List.mem_cons.mp hq with h | h
  · rw [h]; exact hrc
  · exact hrall q h

theorem acontains_iff {β : Type} :
    ∀ (m : List (SpanPath × β)) (k : SpanPath),
    acontains m k = true ↔ k ∈ akeys m := by
  intro m
  induction m with
  | nil => intro k; simp [acontains, alookup, akeys]
  | cons e rest ih =>
    intro k
    rcases e with ⟨k2, v2⟩
    by_cases h : k2 = k
    · subst h
      simp [acontains, alookup, akeys]
    · simp only [acontains, alookup, if_neg h, akeys, List.map_cons, List.mem_cons]
      rw [← akeys, ← acontains, ih]
      constructor
      · intro hk; right; exact hk
      · intro hk
        rcases hk with hk | hk
        · exact absurd hk.symm h
        · exact hk

theorem akeys_append {β : Type} (m1 m2 : List (SpanPath × β)) :
    akeys (m1 ++ m2) = akeys m1 ++ akeys m2 := by
  simp [akeys]

/-- Unfolding equation for `insertAncestorsFrom`. -/
theorem parent_names {p pp : SpanPath} (h : p.parent = some pp) :
    pp.span_names = p.span_names.dropLast ∧ 0 < p.span_names.length := by
  rw [SpanPath.parent] at h
  split at h
  · cases h
    exact ⟨rfl, by omega⟩
  · cases h

theorem insertAncestorsFrom_root (cd : Nat) (p : SpanPath)
    (m : List (SpanPath × Option DirectStats)) (hp : p.parent = none) :
    insertAncestorsFrom cd p m = m := by
  have hlen : p.span_names.length = 0 := by
    rw [SpanPath.parent] at hp
    split at hp
    · cases hp
    · omega
  show insertAncestorsFromFuel cd p.span_names.length p m = m
  rw [hlen]
  rfl

theorem insertAncestorsFrom_parent (cd : Nat) (p pp : SpanPath)
    (m : List (SpanPath × Option DirectStats)) (hp : p.parent = some pp) :
    insertAncestorsFrom cd p m =
      if pp.depth < cd then m
      else insertAncestorsFrom cd pp (if acontains m pp then m else m ++ [(pp, none)]) := by
  rcases parent_names hp with ⟨hn, hpos⟩
  have hlen : p.span_names.length = pp.span_names.length + 1 := by
    rw [hn, List.length_dropLast]
    omega
  show insertAncestorsFromFuel cd p.span_names.length p m = _
  rw [hlen]
  show (match p.parent with
      | none => m
      | some pp2 =>
        if pp2.depth < cd then m
        else insertAncestorsFromFuel cd pp.span_names.length pp2
          (if acontains m pp2 then m else m ++ [(pp2, none)])) = _
  rw [hp]
  rfl

theorem parent_of_nonempty {p : SpanPath} (h : 0 < p.span_names.length) :
    p.parent = some ⟨p.span_names.dropLast⟩ := by
  rw [SpanPath.parent, if_pos h]

theorem insertAncestorsFrom_keys :
    ∀ (n : Nat) (p : SpanPath), p.span_names.length ≤ n →
    ∀ (cd : Nat) (m : List (SpanPath × Option DirectStats)) (q : SpanPath),
    (q ∈ akeys (insertAncestorsFrom cd p m) ↔
      q ∈ akeys m ∨ (q.span_names <+: p.span_names ∧ q.span_names ≠ p.span_names ∧
        cd ≤ q.span_names.length)) := by
  intro n
  induction n with
  | zero =>
    intro p hlen cd m q
    have hnil : p.span_names = [] := List.length_eq_zero.mp (by omega)
    have hpar : p.parent = none := by
      rw [SpanPath.parent, if_neg]
      omega
    rw [insertAncestorsFrom_root cd p m hpar]
    constructor
    · intro h; left; exact h
    · intro h
      rcases h with h | ⟨hpre, hne, -⟩
      · exact h
      · exfalso
        rw [hnil] at hpre hne
        rcases hpre with ⟨t, ht⟩
        simp at ht
        exact hne ht.1
  | succ n ih =>
    intro p hlen cd m q
    rcases hp : p.parent with _ | pp
    · -- no parent: p is the empty path
      have hnil : p.span_names = [] := by
        rw [SpanPath.parent] at hp
        split at hp
        · cases hp
        · exact List.length_eq_zero.mp (by omega)
      rw [insertAncestorsFrom_root cd p m hp]
      constructor
      · intro h; left; exact h
      · intro h
        rcases h with h | ⟨hpre, hne, -⟩
        · exact h
        · exfalso
          rw [hnil] at hpre hne
          rcases hpre with ⟨t, ht⟩
          simp at ht
          exact hne ht.1
    · rw [insertAncestorsFrom_parent cd p pp m hp]
      rcases parent_names hp with ⟨hppn, hpos⟩
      have hpplen : pp.span_names.length = p.span_names.length - 1 := by
        rw [hppn, List.length_dropLast]
      have hpppre : pp.span_names <+: p.span_names := by
        rw [hppn]
        exact List.dropLast_prefix _
      have hppne : pp.span_names ≠ p.span_names := by
        intro habs
        have := congrArg List.length habs
        omega
      by_cases hcd : pp.depth < cd
      · rw [if_pos hcd]
        rw [SpanPath.depth] at hcd
        constructor
        · intro h; left; exact h
        · intro h
          rcases h with h | ⟨hpre, hne, hge⟩
          · exact h
          · exfalso
            have hql : q.span_names.length < p.span_names.length :=
              pre_length_lt hpre hne
            omega
      · rw [if_neg hcd]
        rw [SpanPath.depth] at hcd
        have hm2 : ∀ q2, q2 ∈ akeys (if acontains m pp then m else m ++ [(pp, none)]) ↔
            (q2 ∈ akeys m ∨ q2 = pp) := by
          intro q2
          by_cases hc : acontains m pp
          · rw [if_pos hc]
            constructor
            · intro h; left; exact h
            · intro h
              rcases h with h | h
              · exact h
              · rw [h]; exact (acontains_iff m pp).mp hc
          · rw [if_neg hc, akeys_append]
            simp [akeys]
        rw [ih pp (by omega) cd _ q]
        rw [hm2 q]
        constructor
        · intro h
          rcases h with (h | h) | ⟨hpre, hne, hge⟩
          · left; exact h
          · right
            subst h
            refine ⟨hpppre, hppne, by omega⟩
          · right
            refine ⟨hpre.trans hpppre, ?_, hge⟩
            intro habs
            have h1 := pre_length_lt hpre hne
            have := congrArg List.length habs
            omega
        · intro h
          rcases h with h | ⟨hpre, hne, hge⟩
          · left; left; exact h
          · have hql : q.span_names.length < p.span_names.length :=
              pre_length_lt hpre hne
            by_cases hqpp : q.span_names.length = pp.span_names.length
            · left; right
              apply span_path_eq_of_names
              have h1 : q.span_names <+: pp.span_names :=
                pre_of_pre_of_le hpre hpppre (by omega)
              rcases h1 with ⟨t, ht⟩
              have : t = [] := by
                have := congrArg List.length ht
                simp at this
                rcases t with _ | ⟨a, t2⟩
                · rfl
                · exfalso; simp at this; omega
              rw [this] at ht
              simpa using ht
            · right
              refine ⟨pre_of_pre_of_le hpre hpppre (by omega), ?_, hge⟩
              intro habs
              exact hqpp (congrArg List.length habs)

theorem insertAncestorsFrom_nodup :
    ∀ (n : Nat) (p : SpanPath), p.span_names.length ≤ n →
    ∀ (cd : Nat) (m : List (SpanPath × Option DirectStats)),
    (akeys m).Nodup → (akeys (insertAncestorsFrom cd p m)).Nodup := by
  intro n
  induction n with
  | zero =>
    intro p hlen cd m hnd
    have hpar : p.parent = none := by
      rw [SpanPath.parent, if_neg]
      omega
    rw [insertAncestorsFrom_root cd p m hpar]
    exact hnd
  | succ n ih =>
    intro p hlen cd m hnd
    rcases hp : p.parent with _ | pp
    · rw [insertAncestorsFrom_root cd p m hp]
      exact hnd
    · rw [insertAncestorsFrom_parent cd p pp m hp]
      rcases parent_names hp with ⟨hppn, hpos⟩
      have hpplen : pp.span_names.length ≤ n := by
        have : pp.span_names.length = p.span_names.length - 1 := by
          rw [hppn, List.length_dropLast]
        omega
      by_cases hcd : pp.depth < cd
      · rw [if_pos hcd]; exact hnd
      · rw [if_neg hcd]
        apply ih pp hpplen cd
        by_cases hc : acontains m pp
        · rw [if_pos hc]; exact hnd
        · rw [if_neg hc, akeys_append]
          rw [List.nodup_append]
          refine ⟨hnd, by simp [akeys], ?_⟩
          intro a ha hb
          simp [akeys] at hb
          subst hb
          exact hc ((acontains_iff m a).mpr ha)

theorem foldInsert_keys :
    ∀ (stats : List (SpanPath × DirectStats)) (cd : Nat)
      (m0 : List (SpanPath × Option DirectStats)) (q : SpanPath),
    q ∈ akeys (stats.foldl (fun m pr => insertAncestorsFrom cd pr.1 m) m0) ↔
      q ∈ akeys m0 ∨ ∃ pr ∈ stats, q.span_names <+: pr.1.span_names ∧
        q.span_names ≠ pr.1.span_names ∧ cd ≤ q.span_names.length := by
  intro stats
  induction stats with
  | nil =>
    intro cd m0 q
    simp
  | cons pr rest ih =>
    intro cd m0 q
    rw [List.foldl_cons, ih]
    rw [insertAncestorsFrom_keys pr.1.span_names.length pr.1 (le_refl _)]
    constructor
    · intro h
      rcases h with (h | ⟨h1, h2, h3⟩) | ⟨pr2, hpr2, h⟩
      · left; exact h
      · right; exact ⟨pr, by simp, h1, h2, h3⟩
      · right; exact ⟨pr2, by simp [hpr2], h⟩
    · intro h
      rcases h with h | ⟨pr2, hpr2, h⟩
      · left; left; exact h
      · rcases List.mem_cons.mp hpr2 with he | he
        · subst he
          left; right; exact h
        · right; exact ⟨pr2, he, h⟩

theorem foldInsert_nodup :
    ∀ (stats : List (SpanPath × DirectStats)) (cd : Nat)
      (m0 : List (SpanPath × Option DirectStats)),
    (akeys m0).Nodup →
    (akeys (stats.foldl (fun m pr => insertAncestorsFrom cd pr.1 m) m0)).Nodup := by
  intro stats
  induction stats with
  | nil => intro cd m0 h; exact h
  | cons pr rest ih =>
    intro cd m0 h
    rw [List.foldl_cons]
    exact ih cd _ (insertAncestorsFrom_nodup pr.1.span_names.length pr.1 (le_refl _) cd m0 h)

theorem buildMapC_base_keys (stats : List (SpanPath × DirectStats)) :
    akeys (stats.map (fun pr => (pr.1, some pr.2))) = akeys stats := by
  simp [akeys, List.map_map]

theorem buildMapC_eq_some (stats : List (SpanPath × DirectStats)) (ca : SpanPath)
    (hca : commonAncestorOfKeys stats = some ca) :
    buildMapC stats =
      (if acontains (stats.foldl (fun m pr => insertAncestorsFrom ca.depth pr.1 m)
            (stats.map (fun pr => (pr.1, some pr.2)))) ca
       then stats.foldl (fun m pr => insertAncestorsFrom ca.depth pr.1 m)
            (stats.map (fun pr => (pr.1, some pr.2)))
       else stats.foldl (fun m pr => insertAncestorsFrom ca.depth pr.1 m)
            (stats.map (fun pr => (pr.1, some pr.2))) ++ [(ca, none)]) := by
  simp only [buildMapC]
  rw [hca]

theorem buildMapC_keys (stats : List (SpanPath × DirectStats)) (ca : SpanPath)
    (hca : commonAncestorOfKeys stats = some ca) (q : SpanPath) :
    q ∈ akeys (buildMapC stats) ↔
      (q ∈ akeys stats ∨ q = ca ∨
        ∃ pr ∈ stats, q.span_names <+: pr.1.span_names ∧
          q.span_names ≠ pr.1.span_names ∧ ca.depth ≤ q.span_names.length) := by
  rw [buildMapC_eq_some stats ca hca]
  have hm2k : ∀ q2 : SpanPath,
      q2 ∈ akeys (stats.foldl (fun m pr => insertAncestorsFrom ca.depth pr.1 m)
        (stats.map (fun pr => (pr.1, some pr.2)))) ↔
      q2 ∈ akeys stats ∨ ∃ pr ∈ stats, q2.span_names <+: pr.1.span_names ∧
        q2.span_names ≠ pr.1.span_names ∧ ca.depth ≤ q2.span_names.length := by
    intro q2
    rw [foldInsert_keys, buildMapC_base_keys]
  by_cases hc : acontains (stats.foldl (fun m pr => insertAncestorsFrom ca.depth pr.1 m)
      (stats.map (fun pr => (pr.1, some pr.2)))) ca
  · rw [if_pos hc]
    rw [hm2k q]
    constructor
    · intro h
      rcases h with h | h
      · left; exact h
      · right; right; exact h
    · intro h
      rcases h with h | h | h
      · left; exact h
      · subst h
        rw [← hm2k q]
        exact (acontains_iff _ q).mp hc
      · right; exact h
  · rw [if_neg hc, akeys_append]
    rw [List.mem_append, hm2k q]
    constructor
    · intro h
      rcases h with (h | h) | h
      · left; exact h
      · right; right; exact h
      · right; left
        simpa [akeys] using h
    · intro h
      rcases h with h | h | h
      · left; left; exact h
      · right; simp [akeys, h]
      · left; right; exact h

theorem buildMapC_nodup (stats : List (SpanPath × DirectStats)) (ca : SpanPath)
    (hca : commonAncestorOfKeys stats = some ca)
    (hnd : (akeys stats).Nodup) : (akeys (buildMapC stats)).Nodup := by
  rw [buildMapC_eq_some stats ca hca]
  have hbase : (akeys (stats.map (fun pr => (pr.1, some pr.2)))).Nodup := by
    rw [buildMapC_base_keys]
    exact hnd
  have hm2 := foldInsert_nodup stats ca.depth _ hbase
  by_cases hc : acontains (stats.foldl (fun m pr => insertAncestorsFrom ca.depth pr.1 m)
      (stats.map (fun pr => (pr.1, some pr.2)))) ca
  · rw [if_pos hc]; exact hm2
  · rw [if_neg hc, akeys_append, List.nodup_append]
    refine ⟨hm2, by simp [akeys], ?_⟩
    intro a ha hb
    simp [akeys] at hb
    subst hb
    exact hc ((acontains_iff _ a).mpr ha)

theorem ca_mem_buildMapC (stats : List (SpanPath × DirectStats)) (ca : SpanPath)
    (hca : commonAncestorOfKeys stats = some ca) :
    ca ∈ akeys (buildMapC stats) := by
  rw [buildMapC_eq_some stats ca hca]
  by_cases hc : acontains (stats.foldl (fun m pr => insertAncestorsFrom ca.depth pr.1 m)
      (stats.map (fun pr => (pr.1, some pr.2)))) ca
  · rw [if_pos hc]
    exact (acontains_iff _ ca).mp hc
  · rw [if_neg hc, akeys_append, List.mem_append]
    right
    simp [akeys]

/- ## Sorting facts -/

theorem sortPairs_perm {β : Type} (m : List (SpanPath × β)) :
    (sortPairsByNames m).Perm m :=
  List.perm_insertionSort pairLE m

theorem sortPairs_sorted_le {β : Type} (m : List (SpanPath × β)) :
    List.Pairwise (fun x y => namesLE x.1.span_names y.1.span_names = true)
      (sortPairsByNames m) :=
  List.sorted_insertionSort pairLE m

theorem sortPairs_pairwise_lt {β : Type} (m : List (SpanPath × β))
    (hnd : (akeys m).Nodup) :
    List.Pairwise (fun a b : SpanPath => namesCmp a.span_names b.span_names = .lt)
      ((sortPairsByNames m).map Prod.fst) := by
  rw [List.pairwise_map]
  have hle := sortPairs_sorted_le m
  have hndp : ((sortPairsByNames m).map Prod.fst).Nodup :=
    (List.Perm.map Prod.fst (sortPairs_perm m)).nodup_iff.mpr hnd
  have hne : List.Pairwise (fun x y : SpanPath × β => x.1 ≠ y.1) (sortPairsByNames m) :=
    List.pairwise_map.mp hndp
  refine (hle.and hne).imp ?_
  intro a b hab
  rcases hab with ⟨h1, h2⟩
  rcases hc : namesCmp a.1.span_names b.1.span_names with _ | _ | _
  · rfl
  · exact absurd (span_path_eq_of_names ((namesCmp_eq_iff _ _).mp hc)) h2
  · rw [namesLE_iff] at h1
    exact absurd hc h1

/-- The central success result: for a non-empty map with distinct keys, the
map-building phase of `create_timing_tree` always produces a list of pairs
that `try_from_depth_first_ordering` accepts, and the resulting tree stores
the sorted paths and payloads verbatim. -/
theorem createTimingTreeStep_eq_ok (stats : List (SpanPath × DirectStats))
    (hne : stats ≠ []) (hnd : (akeys stats).Nodup) :
    createTimingTreeStep stats =
      .ok ⟨(sortPairsByNames (buildMapC stats)).map Prod.fst,
           (sortPairsByNames (buildMapC stats)).map Prod.snd⟩ := by
  obtain ⟨pr0, rest0, hstats⟩ : ∃ pr0 rest0, stats = pr0 :: rest0 := by
    cases stats with
    | nil => exact absurd rfl hne
    | cons a b => exact ⟨a, b, rfl⟩
  subst hstats
  obtain ⟨ca, hca, hcaall0⟩ := commonAncestorOfKeys_cons pr0 rest0
  set M := buildMapC (pr0 :: rest0) with hM
  have hcaall : ∀ q ∈ akeys (pr0 :: rest0), ca.span_names <+: q.span_names := by
    intro q hq
    rcases List.mem_map.mp hq with ⟨pr, hpr, hpr1⟩
    rw [← hpr1]
    exact hcaall0 pr hpr
  have hallM : ∀ q, q ∈ akeys M → ca.span_names <+: q.span_names := by
    intro q hq
    rw [hM, buildMapC_keys _ ca hca q] at hq
    rcases hq with h | h | ⟨pr, hpr, h1, h2, h3⟩
    · exact hcaall q h
    · rw [h]
    · refine pre_of_pre_of_le (hcaall0 pr hpr) h1 ?_
      rw [SpanPath.depth] at h3
      exact h3
  have hMnd : (akeys M).Nodup := buildMapC_nodup _ ca hca hnd
  have hcaM : ca ∈ akeys M := ca_mem_buildMapC _ ca hca
  have hclosedM : ∀ q, q ∈ akeys M → q ≠ ca →
      (⟨q.span_names.dropLast⟩ : SpanPath) ∈ akeys M := by
    intro q hq hqca
    have hpre : ca.span_names <+: q.span_names := hallM q hq
    have hnames_ne : ca.span_names ≠ q.span_names := by
      intro h
      exact hqca (span_path_eq_of_names h.symm)
    have hlen : ca.span_names.length < q.span_names.length := pre_length_lt hpre hnames_ne
    have hdl_len : q.span_names.dropLast.length = q.span_names.length - 1 :=
      List.length_dropLast _
    rw [hM, buildMapC_keys _ ca hca] at hq ⊢
    rcases hq with h | h | ⟨pr, hpr, h1, h2, h3⟩
    · right; right
      rcases List.mem_map.mp h with ⟨pr, hpr, hpr1⟩
      refine ⟨pr, hpr, ?_, ?_, ?_⟩
      · rw [← hpr1]
        exact List.dropLast_prefix _
      · intro habs
        have := congrArg List.length habs
        rw [hdl_len, hpr1] at this
        omega
      · show ca.span_names.length ≤ q.span_names.dropLast.length
        rw [hdl_len]
        omega
    · exact absurd h hqca
    · right; right
      have hqlen : q.span_names.length ≤ pr.1.span_names.length := h1.length_le
      refine ⟨pr, hpr, (List.dropLast_prefix _).trans h1, ?_, ?_⟩
      · intro habs
        have := congrArg List.length habs
        rw [hdl_len] at this
        omega
      · show ca.span_names.length ≤ q.span_names.dropLast.length
        rw [hdl_len]
        omega
  set pairs := sortPairsByNames M with hpairs
  set L := pairs.map Prod.fst with hLdef
  have hpermK : L.Perm (akeys M) := List.Perm.map Prod.fst (sortPairs_perm M)
  have hLmem : ∀ x : SpanPath, x ∈ L ↔ x ∈ akeys M := fun x => hpermK.mem_iff
  have hLlt : List.Pairwise
      (fun a b : SpanPath => namesCmp a.span_names b.span_names = .lt) L :=
    sortPairs_pairwise_lt M hMnd
  have hcaL : ca ∈ L := (hLmem ca).mpr hcaM
  obtain ⟨h0, t0, hL⟩ : ∃ h0 t0, L = h0 :: t0 := by
    cases hLl : L with
    | nil => rw [hLl] at hcaL; cases hcaL
    | cons a b => exact ⟨a, b, rfl⟩
  have hhead : h0 = ca := by
    rw [hL] at hcaL
    rcases List.mem_cons.mp hcaL with h | h
    · exact h.symm
    · exfalso
      have hlt : namesCmp h0.span_names ca.span_names = .lt := by
        rw [hL] at hLlt
        exact (List.pairwise_cons.mp hLlt).1 ca h
      have hpre : ca.span_names <+: h0.span_names :=
        hallM h0 ((hLmem h0).mp (by rw [hL]; simp))
      have hle : namesLE ca.span_names h0.span_names = true := namesLE_of_pre hpre
      rw [namesLE_iff] at hle
      exact hle ((namesCmp_swap _ _).mp hlt)
  subst hhead
  have hallL : ∀ q ∈ L, h0.span_names <+: q.span_names :=
    fun q hq => hallM q ((hLmem q).mp hq)
  have hclosedL : ∀ q ∈ L, q.span_names ≠ h0.span_names →
      q.span_names.dropLast ∈ L.map SpanPath.span_names := by
    intro q hq hne2
    have hqM := (hLmem q).mp hq
    have hpar := hclosedM q hqM (fun h => hne2 (by rw [h]))
    have hmem := (hLmem _).mpr hpar
    exact List.mem_map.mpr ⟨⟨q.span_names.dropLast⟩, hmem, rfl⟩
  have hok : ∃ st, tryFromLoop h0.span_names.length h0.span_names t0 = .ok st := by
    apply tryFromLoop_ok_aux t0 [h0] h0.span_names h0
    · show List.Pairwise _ ([h0] ++ t0)
      rw [List.singleton_append, ← hL]
      exact hLlt
    · intro q hq
      rw [List.singleton_append, ← hL] at hq
      exact hallL q hq
    · intro q hq hne2
      rw [List.singleton_append, ← hL] at hq ⊢
      exact hclosedL q hq hne2
    · simp
    · intro x hx
      have : x = h0 := by simpa using hx
      rw [this, namesLE_iff, namesCmp_self]
      simp
  rcases hok with ⟨stf, hstf⟩
  have hfinal : SpanTree.try_from_depth_first_ordering L (pairs.map Prod.snd) =
      .ok ⟨L, pairs.map Prod.snd⟩ := by
    rw [hL, SpanTree.try_from_depth_first_ordering]
    have hd : h0.depth = h0.span_names.length := rfl
    rw [hd, hstf]
  exact hfinal

/-- C6: for every non-empty recorded map with distinct keys, the
tree-building step of `create_timing_tree` (ancestor insertion, sorting,
validating construction) succeeds: the `expect` branch is unreachable. -/
theorem C6_theorem (stats : List (SpanPath × DirectStats))
    (hne : stats ≠ []) (hnd : (akeys stats).Nodup) :
    ∃ t, createTimingTreeStep stats = .ok t :=
  ⟨_, createTimingTreeStep_eq_ok stats hne hnd⟩

/-- Witness for C6 at a concrete two-entry map. -/
theorem C6_witness :
    ∃ t, createTimingTreeStep
      [(SpanPath.mk ["run", "step", "solve"], ⟨5, 1⟩),
       (SpanPath.mk ["run", "other"], ⟨2, 1⟩)] = .ok t :=
  C6_theorem _ (by simp) (by simp [akeys])

/- ## SpanTreeNode and parent lookup (span_tree.rs) -/

/-- `SpanTreeNode<'a, Payload>`: a view into the parallel vectors at one
index. -/
structure SpanTreeNode (β : Type) where
  tree_depth_first : List SpanPath
  payloads : List β
  index : Nat
deriving Repr

/-- `SpanTree::root`: the node at index 0 (the source asserts nonemptiness). -/
def SpanTree.rootNode {β : Type} (t : SpanTree β) : SpanTreeNode β :=
  ⟨t.tree_depth_first, t.payloads, 0⟩

/-- `SpanTreeNode::path`.  The source indexes the slice directly; a valid
node's index is always in bounds, so the default is never taken. -/
def SpanTreeNode.path {β : Type} (n : SpanTreeNode β) : SpanPath :=
  n.tree_depth_first.getD n.index ⟨[]⟩

/-- `SpanTreeNode::payload` (again with an unreachable default for
out-of-bounds). -/
def SpanTreeNode.payload {β : Type} [Inhabited β] (n : SpanTreeNode β) : β :=
  n.payloads.getD n.index default

/-- `SpanTreeNode::root`. -/
def SpanTreeNode.root {β : Type} (n : SpanTreeNode β) : SpanTreeNode β :=
  { n with index := 0 }

/-- Rust `slice::binary_search_by` (as used by `binary_search_by_key` on the
path-name key): classic halving loop on `[left, right)`.  The fuel argument
only bounds the iteration count so that the function is structurally
recursive (and hence kernel-reducible); `right - left` strictly decreases
each iteration, so `keys.length` iterations always suffice. -/
def bsearchLoop (keys : List SpanPath) (target : List String) :
    Nat → Nat → Nat → Option Nat
  | 0, _, _ => none
  | fuel + 1, left, right =>
    if left < right then
      let mid := left + (right - left) / 2
      match namesCmp ((keys.getD mid ⟨[]⟩).span_names) target with
      | .lt => bsearchLoop keys target fuel (mid + 1) right
      | .gt => bsearchLoop keys target fuel left mid
      | .eq => some mid
    else none

/-- `binary_search_by_key(&parent_path.span_names(), |path| path.span_names())`
on a slice of paths. -/
def bsearchNames (keys : List SpanPath) (target : List String) : Option Nat :=
  bsearchLoop keys target keys.length 0 keys.length

/-- `SpanTreeNode::parent`: binary-search the prefix-preceding slice
(indices `0 .. index`) for the parent path. -/
def SpanTreeNode.parent {β : Type} (n : SpanTreeNode β) : Option (SpanTreeNode β) :=
  match n.path.parent with
  | none => none
  | some pp =>
    match bsearchNames (n.tree_depth_first.take n.index) pp.span_names with
    | some j => some { n with index := j }
    | none => none

/- ## Binary search correctness on sorted slices -/

theorem pairwise_lt_getD (keys : List SpanPath)
    (hpw : List.Pairwise
      (fun a b : SpanPath => namesCmp a.span_names b.span_names = .lt) keys)
    (i j : Nat) (hi : i < keys.length) (hj : j < keys.length) (hij : i < j) :
    namesCmp ((keys.getD i ⟨[]⟩).span_names) ((keys.getD j ⟨[]⟩).span_names) = .lt := by
  rw [List.getD_eq_getElem _ _ hi, List.getD_eq_getElem _ _ hj]
  exact (List.pairwise_iff_getElem.mp hpw) i j hi hj hij

theorem bsearchLoop_sound (keys : List SpanPath) (target : List String) :
    ∀ (fuel left right i : Nat), bsearchLoop keys target fuel left right = some i →
      left ≤ i ∧ i < right ∧
        namesCmp ((keys.getD i ⟨[]⟩).span_names) target = .eq := by
  intro fuel
  induction fuel with
  | zero => intro l r i h; cases h
  | succ fuel ih =>
    intro left right i h
    simp only [bsearchLoop] at h
    by_cases hlr : left < right
    · rw [if_pos hlr] at h
      rcases hc : namesCmp ((keys.getD (left + (right - left) / 2) ⟨[]⟩).span_names) target
        with _ | _ | _ <;> rw [hc] at h
      · rcases ih _ _ _ h with ⟨h1, h2, h3⟩
        exact ⟨by omega, h2, h3⟩
      · cases h
        exact ⟨by omega, by omega, hc⟩
      · rcases ih _ _ _ h with ⟨h1, h2, h3⟩
        exact ⟨h1, by omega, h3⟩
    · rw [if_neg hlr] at h
      cases h

theorem bsearchLoop_complete (keys : List SpanPath) (target : List String)
    (hpw : List.Pairwise
      (fun a b : SpanPath => namesCmp a.span_names b.span_names = .lt) keys) :
    ∀ (fuel left right j : Nat), right - left ≤ fuel → right ≤ keys.length →
      left ≤ j → j < right → (keys.getD j ⟨[]⟩).span_names = target →
      bsearchLoop keys target fuel left right ≠ none := by
  intro fuel
  induction fuel with
  | zero =>
    intro left right j hf _ h1 h2 _
    omega
  | succ fuel ih =>
    intro left right j hf hr h1 h2 hj
    have hlr : left < right := by omega
    simp only [bsearchLoop, if_pos hlr]
    rcases hc : namesCmp ((keys.getD (left + (right - left) / 2) ⟨[]⟩).span_names) target
      with _ | _ | _
    · -- keys[mid] < target: the hit is to the right of mid
      have hmid_lt : left + (right - left) / 2 < right := by omega
      have hjgt : left + (right - left) / 2 < j := by
        by_contra hle
        push_neg at hle
        rcases Nat.lt_or_ge j (left + (right - left) / 2) with hlt | hge
        · have := pairwise_lt_getD keys hpw j (left + (right - left) / 2)
            (by omega) (by omega) hlt
          rw [hj] at this
          have hswap := (namesCmp_swap _ _).mp this
          rw [hc] at hswap
          cases hswap
        · have : j = left + (right - left) / 2 := by omega
          rw [this] at hj
          rw [hj, namesCmp_self] at hc
          cases hc
      exact ih (left + (right - left) / 2 + 1) right j (by omega) hr (by omega) h2 hj
    · -- exact hit
      simp
    · -- keys[mid] > target: the hit is to the left of mid
      have hjlt : j < left + (right - left) / 2 := by
        by_contra hle
        push_neg at hle
        rcases Nat.lt_or_ge (left + (right - left) / 2) j with hlt | hge
        · have := pairwise_lt_getD keys hpw (left + (right - left) / 2) j
            (by omega) (by omega) hlt
          rw [hj] at this
          rw [this] at hc
          cases hc
        · have : j = left + (right - left) / 2 := by omega
          rw [this] at hj
          rw [hj, namesCmp_self] at hc
          cases hc
      exact ih left (left + (right - left) / 2) j (by omega) (by omega) h1 hjlt hj

/- ## Parent presence along an accepted scan -/

/-- After a successful scan, every scanned path is non-empty and its parent
name-sequence appears either in the initial stack-prefix set `S` or among the
previously scanned paths. -/
def parentsOk : List (List String) → List SpanPath → Prop
  | _, [] => True
  | S, p :: rest =>
    p.span_names ≠ [] ∧ p.span_names.dropLast ∈ S ∧ parentsOk (p.span_names :: S) rest

theorem tryFromLoop_parentsOk :
    ∀ (rest : List SpanPath) (rd : Nat) (stack : List String) (S : List (List String))
      (res : List String),
    tryFromLoop rd stack rest = .ok res →
    (∀ k, rd ≤ k → k ≤ stack.length → stack.take k ∈ S) →
    parentsOk S rest := by
  intro rest
  induction rest with
  | nil =>
    intro rd stack S res _ _
    trivial
  | cons p rest2 ih =>
    intro rd stack S res hok hS
    rw [tryFromLoop_cons] at hok
    rcases hse : stepErr rd stack p with _ | e
    · rw [hse] at hok
      rcases stepErr_none_facts rd stack p hse with ⟨hstk, hdrop, hrd, hlen⟩
      have hnq : p.span_names ≠ [] := by
        intro habs
        rw [habs] at hlen
        simp at hlen
      have hn_le : commonLen stack p.span_names ≤ stack.length := commonLen_le_left _ _
      refine ⟨hnq, ?_, ?_⟩
      · rw [hdrop]
        exact hS _ hrd hn_le
      · apply ih rd (stepStack stack p) (p.span_names :: S) res hok
        intro k hk1 hk2
        rw [hstk] at hk2 ⊢
        by_cases hkn : k = p.span_names.length
        · rw [hkn, List.take_length]
          exact List.mem_cons_self _ _
        · have hkle : k ≤ commonLen stack p.span_names := by omega
          have htk : p.span_names.take k = stack.take k := by
            have h2 : p.span_names.take (commonLen stack p.span_names)
                = stack.take (commonLen stack p.span_names) :=
              (take_commonLen_eq_left stack p.span_names).symm
            calc p.span_names.take k
                = (p.span_names.take (commonLen stack p.span_names)).take k := by
                  rw [List.take_take]
                  congr 1
                  omega
              _ = (stack.take (commonLen stack p.span_names)).take k := by rw [h2]
              _ = stack.take k := by
                  rw [List.take_take]
                  congr 1
                  omega
          rw [htk]
          exact List.mem_cons_of_mem _ (hS k hk1 (by omega))
    · rw [hse] at hok
      cases hok

theorem parentsOk_getD :
    ∀ (rest : List SpanPath) (S : List (List String)), parentsOk S rest →
    ∀ i, i < rest.length →
      (rest.getD i ⟨[]⟩).span_names ≠ [] ∧
      ((rest.getD i ⟨[]⟩).span_names.dropLast ∈ S ∨
        (rest.getD i ⟨[]⟩).span_names.dropLast ∈ (rest.take i).map SpanPath.span_names) := by
  intro rest
  induction rest with
  | nil =>
    intro S _ i hi
    simp at hi
  | cons p rest2 ih =>
    intro S hp i hi
    rcases hp with ⟨hne, hmem, htail⟩
    cases i with
    | zero =>
      exact ⟨hne, Or.inl hmem⟩
    | succ i =>
      have hi2 : i < rest2.length := by
        simp at hi
        omega
      rcases ih (p.span_names :: S) htail i hi2 with ⟨hne2, hmem2⟩
      refine ⟨hne2, ?_⟩
      rcases hmem2 with h | h
      · rcases List.mem_cons.mp h with h | h
        · right
          rw [List.take_succ_cons, List.map_cons]
          exact List.mem_cons.mpr (Or.inl h)
        · left; exact h
      · right
        rw [List.take_succ_cons, List.map_cons]
        exact List.mem_cons.mpr (Or.inr h)

theorem tryFrom_ok_inv {β : Type} (paths : List SpanPath) (payloads : List β)
    (t : SpanTree β)
    (h : SpanTree.try_from_depth_first_ordering paths payloads = .ok t) :
    t.tree_depth_first = paths ∧ t.payloads = payloads ∧
      ∃ root others st, paths = root :: others ∧
        tryFromLoop root.depth root.span_names others = .ok st := by
  cases paths with
  | nil => cases h
  | cons root others =>
    rw [SpanTree.try_from_depth_first_ordering] at h
    rcases h2 : tryFromLoop root.depth root.span_names others with e | st
    · rw [h2] at h; cases h
    · rw [h2] at h
      cases h
      exact ⟨rfl, rfl, root, others, st, rfl, h2⟩

theorem node_parent_formula {β : Type} (P : List SpanPath) (pl : List β) (i : Nat)
    (hne : (P.getD i ⟨[]⟩).span_names ≠ []) :
    (SpanTreeNode.mk P pl i).parent =
      match bsearchNames (P.take i) ((P.getD i ⟨[]⟩).span_names.dropLast) with
      | some j => some ⟨P, pl, j⟩
      | none => none := by
  rw [SpanTreeNode.parent]
  have hppar : (SpanTreeNode.mk P pl i).path.parent
      = some ⟨(P.getD i ⟨[]⟩).span_names.dropLast⟩ := by
    apply parent_of_nonempty
    have : (SpanTreeNode.mk P pl i).path = P.getD i ⟨[]⟩ := rfl
    rw [this]
    cases hn : (P.getD i ⟨[]⟩).span_names with
    | nil => exact absurd hn hne
    | cons a l => simp [hn]
  rw [hppar]

theorem node_parent_zero {β : Type} (P : List SpanPath) (pl : List β) :
    (SpanTreeNode.mk P pl 0).parent = none := by
  rw [SpanTreeNode.parent]
  rcases hp : (SpanTreeNode.mk P pl 0).path.parent with _ | pp
  · rfl
  · rfl

/-- C7 counterexample: the depth-first ordering `a, a>c, a>b, a>b>x` is
accepted by `try_from_depth_first_ordering` (it is a valid depth-first
traversal, just not sorted by name), the non-root node `a>b>x` has its parent
`a>b` stored at the strictly earlier index 2 — yet `node.parent()` returns
`None`, because the binary search runs on an unsorted slice. -/
theorem C7_counterexample :
    SpanTree.try_from_depth_first_ordering
        [SpanPath.mk ["a"], SpanPath.mk ["a", "c"], SpanPath.mk ["a", "b"],
         SpanPath.mk ["a", "b", "x"]] ([0, 1, 2, 3] : List Nat)
      = .ok ⟨[SpanPath.mk ["a"], SpanPath.mk ["a", "c"], SpanPath.mk ["a", "b"],
              SpanPath.mk ["a", "b", "x"]], [0, 1, 2, 3]⟩
    ∧ (SpanPath.mk ["a", "b", "x"]).parent = some (SpanPath.mk ["a", "b"])
    ∧ ([SpanPath.mk ["a"], SpanPath.mk ["a", "c"], SpanPath.mk ["a", "b"],
        SpanPath.mk ["a", "b", "x"]].getD 2 ⟨[]⟩) = SpanPath.mk ["a", "b"]
    ∧ (SpanTreeNode.mk
        [SpanPath.mk ["a"], SpanPath.mk ["a", "c"], SpanPath.mk ["a", "b"],
         SpanPath.mk ["a", "b", "x"]] ([0, 1, 2, 3] : List Nat) 3).parent = none := by
  refine ⟨?_, ?_, ?_, ?_⟩ <;> rfl

/-- C7 (amended): in every tree accepted by `try_from_depth_first_ordering`
whose path sequence is additionally strictly sorted by name sequence (as all
trees built by `create_timing_tree`/`from_paths_and_payloads` are),
`node.parent()` returns a node at a strictly earlier index whose path is
exactly `path.parent()` for every non-root node, and returns `None` for the
root (index 0). -/
theorem C7_amended :
    ∀ (paths : List SpanPath) (payloads : List Nat) (t : SpanTree Nat),
    SpanTree.try_from_depth_first_ordering paths payloads = .ok t →
    List.Pairwise (fun a b : SpanPath => namesCmp a.span_names b.span_names = .lt) paths →
    ((∀ i, 0 < i → i < t.tree_depth_first.length →
      ∃ j, j < i ∧
        (SpanTreeNode.mk t.tree_depth_first t.payloads i).parent
          = some ⟨t.tree_depth_first, t.payloads, j⟩ ∧
        (t.tree_depth_first.getD j ⟨[]⟩).span_names
          = (t.tree_depth_first.getD i ⟨[]⟩).span_names.dropLast)
    ∧ (SpanTreeNode.mk t.tree_depth_first t.payloads 0).parent = none) := by
  intro paths payloads t hok hpw
  rcases tryFrom_ok_inv paths payloads t hok with
    ⟨hpaths, hpay, root, others, st, hsplit, hloop⟩
  refine ⟨?_, node_parent_zero _ _⟩
  intro i hi0 hilen
  have hparOk : parentsOk [root.span_names] others := by
    apply tryFromLoop_parentsOk others root.depth root.span_names [root.span_names] st hloop
    intro k h1 h2
    rw [SpanPath.depth] at h1
    have hk : k = root.span_names.length := by omega
    rw [hk, List.take_length]
    exact List.mem_cons_self _ _
  have hilen' : i < paths.length := by rw [← hpaths]; exact hilen
  have hi1 : i - 1 < others.length := by
    rw [hsplit] at hilen'
    simp at hilen'
    omega
  have hPi : paths.getD i ⟨[]⟩ = others.getD (i - 1) ⟨[]⟩ := by
    rw [hsplit]
    cases i with
    | zero => omega
    | succ i => rfl
  rcases parentsOk_getD others [root.span_names] hparOk (i - 1) hi1 with ⟨hne, hmem⟩
  have hmem2 : (paths.getD i ⟨[]⟩).span_names.dropLast
      ∈ (paths.take i).map SpanPath.span_names := by
    rw [hPi, hsplit]
    cases i with
    | zero => omega
    | succ i =>
      rw [List.take_succ_cons, List.map_cons]
      simp only [Nat.add_sub_cancel] at hmem ⊢
      rcases hmem with h | h
      · have : (others.getD i ⟨[]⟩).span_names.dropLast = root.span_names := by
          simpa using h
        rw [this]
        exact List.mem_cons_self _ _
      · exact List.mem_cons.mpr (Or.inr h)
  have hne2 : (paths.getD i ⟨[]⟩).span_names ≠ [] := by
    rw [hPi]; exact hne
  rcases List.mem_map.mp hmem2 with ⟨x, hx, hxnames⟩
  rcases List.mem_iff_getElem.mp hx with ⟨j, hjlen, hjx⟩
  have htake_len : (paths.take i).length = i := by
    rw [List.length_take]
    omega
  have hjlt : j < i := by
    rw [htake_len] at hjlen
    exact hjlen
  have hslice_pw : List.Pairwise
      (fun a b : SpanPath => namesCmp a.span_names b.span_names = .lt) (paths.take i) :=
    List.Pairwise.sublist (List.take_sublist i paths) hpw
  have hfind : bsearchNames (paths.take i) ((paths.getD i ⟨[]⟩).span_names.dropLast)
      ≠ none := by
    apply bsearchLoop_complete _ _ hslice_pw _ 0 (paths.take i).length j
      (by omega) (le_refl _) (Nat.zero_le _) hjlen
    rw [List.getD_eq_getElem _ _ hjlen, hjx]
    exact hxnames
  rcases ho : bsearchNames (paths.take i) ((paths.getD i ⟨[]⟩).span_names.dropLast)
    with _ | j2
  · exact absurd ho hfind
  · rcases bsearchLoop_sound _ _ _ _ _ j2 ho with ⟨-, hj2r, hj2eq⟩
    have hj2i : j2 < i := by
      rw [htake_len] at hj2r
      exact hj2r
    refine ⟨j2, hj2i, ?_, ?_⟩
    · rw [hpaths, hpay]
      rw [node_parent_formula paths payloads i hne2, ho]
    · have hj2len : j2 < paths.length := by omega
      have heqnames : ((paths.take i).getD j2 ⟨[]⟩).span_names
          = (paths.getD i ⟨[]⟩).span_names.dropLast :=
        (namesCmp_eq_iff _ _).mp hj2eq
      rw [hpaths]
      rw [← heqnames]
      rw [List.getD_eq_getElem paths ⟨[]⟩ hj2len,
          List.getD_eq_getElem (paths.take i) ⟨[]⟩ (by rw [htake_len]; exact hj2i),
          List.getElem_take]

/-- Witness for C7 (amended) on a concrete sorted two-node tree. -/
theorem C7_amended_witness :
    ∃ j, j < 1 ∧
      (SpanTreeNode.mk [SpanPath.mk ["a"], SpanPath.mk ["a", "b"]]
        ([0, 1] : List Nat) 1).parent
        = some ⟨[SpanPath.mk ["a"], SpanPath.mk ["a", "b"]], [0, 1], j⟩ ∧
      ([SpanPath.mk ["a"], SpanPath.mk ["a", "b"]].getD j ⟨[]⟩).span_names
        = ([SpanPath.mk ["a"], SpanPath.mk ["a", "b"]].getD 1 ⟨[]⟩).span_names.dropLast := by
  have h := (C7_amended [SpanPath.mk ["a"], SpanPath.mk ["a", "b"]] [0, 1]
    ⟨[SpanPath.mk ["a"], SpanPath.mk ["a", "b"]], [0, 1]⟩ rfl (by decide)).1
  exact h 1 (by decide) (by decide)

/- ## from_paths_and_payloads and transform_payloads (span_tree.rs) -/

/-- `SpanTree::from_paths_and_payloads`: zip paths with payloads, stable-sort
the pairs by path name sequence (`sort_by` on `span_names().cmp(..)`), and
unzip. -/
def SpanTree.from_paths_and_payloads {β : Type} (paths : List SpanPath)
    (payloads : List β) : SpanTree β :=
  let pairs := (paths.zip payloads).insertionSort pairLE
  ⟨pairs.map Prod.fst, pairs.map Prod.snd⟩

/-- `SpanTree::transform_payloads`: apply the transformation to a node view
of every index in order, then rebuild through `from_paths_and_payloads`. -/
def SpanTree.transform_payloads {β β2 : Type} (t : SpanTree β)
    (transform : SpanTreeNode β → β2) : SpanTree β2 :=
  SpanTree.from_paths_and_payloads t.tree_depth_first
    ((List.range t.tree_depth_first.length).map
      (fun i => transform ⟨t.tree_depth_first, t.payloads, i⟩))

/-- C8 counterexample: on the valid (accepted) but unsorted tree
`a, a>c, a>b`, `transform_payloads` re-sorts, so the output path order is NOT
identical to the input's. -/
theorem C8_counterexample :
    SpanTree.try_from_depth_first_ordering
        [SpanPath.mk ["a"], SpanPath.mk ["a", "c"], SpanPath.mk ["a", "b"]]
        ([0, 1, 2] : List Nat)
      = .ok ⟨[SpanPath.mk ["a"], SpanPath.mk ["a", "c"], SpanPath.mk ["a", "b"]], [0, 1, 2]⟩
    ∧ ((SpanTree.mk [SpanPath.mk ["a"], SpanPath.mk ["a", "c"], SpanPath.mk ["a", "b"]]
          ([0, 1, 2] : List Nat)).transform_payloads
            (fun n => n.payload)).tree_depth_first
        ≠ [SpanPath.mk ["a"], SpanPath.mk ["a", "c"], SpanPath.mk ["a", "b"]] := by
  constructor
  · rfl
  · decide

/-- For a tree with strictly sorted paths, `transform_payloads` keeps the
path sequence and applies the transformation index-wise. -/
theorem transform_payloads_of_sorted :
    ∀ (β β2 : Type) (t : SpanTree β) (f : SpanTreeNode β → β2),
    List.Pairwise (fun a b : SpanPath => namesCmp a.span_names b.span_names = .lt)
      t.tree_depth_first →
    (t.transform_payloads f).tree_depth_first = t.tree_depth_first ∧
    (t.transform_payloads f).payloads
      = (List.range t.tree_depth_first.length).map
          (fun i => f ⟨t.tree_depth_first, t.payloads, i⟩) := by
  intro β β2 t f hpw
  have hlen : ((List.range t.tree_depth_first.length).map
      (fun i => f ⟨t.tree_depth_first, t.payloads, i⟩)).length
      = t.tree_depth_first.length := by simp
  have hmapfst : (t.tree_depth_first.zip
      ((List.range t.tree_depth_first.length).map
        (fun i => f ⟨t.tree_depth_first, t.payloads, i⟩))).map Prod.fst
      = t.tree_depth_first :=
    List.map_fst_zip _ _ (by rw [hlen])
  have hzip_pw : List.Sorted pairLE
      (t.tree_depth_first.zip
        ((List.range t.tree_depth_first.length).map
          (fun i => f ⟨t.tree_depth_first, t.payloads, i⟩))) := by
    have h1 : List.Pairwise
        (fun a b : SpanPath => namesCmp a.span_names b.span_names = .lt)
        ((t.tree_depth_first.zip
          ((List.range t.tree_depth_first.length).map
            (fun i => f ⟨t.tree_depth_first, t.payloads, i⟩))).map Prod.fst) := by
      rw [hmapfst]
      exact hpw
    refine (List.pairwise_map.mp h1).imp ?_
    intro a b hab
    show namesLE _ _ = true
    rw [namesLE_iff, hab]
    simp
  have hsorted := List.Sorted.insertionSort_eq hzip_pw
  constructor
  · show ((t.tree_depth_first.zip
        ((List.range t.tree_depth_first.length).map
          (fun i => f ⟨t.tree_depth_first, t.payloads, i⟩))).insertionSort
          pairLE).map Prod.fst
      = t.tree_depth_first
    rw [hsorted, hmapfst]
  · show ((t.tree_depth_first.zip
        ((List.range t.tree_depth_first.length).map
          (fun i => f ⟨t.tree_depth_first, t.payloads, i⟩))).insertionSort
          pairLE).map Prod.snd
      = (List.range t.tree_depth_first.length).map
          (fun i => f ⟨t.tree_depth_first, t.payloads, i⟩)
    rw [hsorted]
    exact List.map_snd_zip _ _ (by rw [hlen])


/-- C8 (amended): for every tree whose paths are strictly sorted by name
sequence (true of every tree the library itself builds),
`transform_payloads` keeps the path sequence identical and replaces each
payload by the transformation applied to the corresponding node of the
original tree. -/
theorem C8_amended :
    ∀ (β β2 : Type) (t : SpanTree β) (f : SpanTreeNode β → β2),
    List.Pairwise (fun a b : SpanPath => namesCmp a.span_names b.span_names = .lt)
      t.tree_depth_first →
    (t.transform_payloads f).tree_depth_first = t.tree_depth_first ∧
    (t.transform_payloads f).payloads
      = (List.range t.tree_depth_first.length).map
          (fun i => f ⟨t.tree_depth_first, t.payloads, i⟩) :=
  transform_payloads_of_sorted

/-- Witness for C8 (amended) on a concrete sorted tree. -/
theorem C8_amended_witness :
    ((SpanTree.mk [SpanPath.mk ["a"], SpanPath.mk ["a", "b"]]
        ([5, 7] : List Nat)).transform_payloads
          (fun n => n.payload)).tree_depth_first
      = [SpanPath.mk ["a"], SpanPath.mk ["a", "b"]] :=
  (C8_amended Nat Nat
    (SpanTree.mk [SpanPath.mk ["a"], SpanPath.mk ["a", "b"]] [5, 7])
    (fun n => n.payload) (by decide)).1

/- ## DerivedStats and the full create_timing_tree (timing.rs) -/

/-- Model of the `f64` values produced by duration ratios: an exact rational,
or the IEEE non-finite outcomes.  `Duration::as_secs_f64` divides the
nanosecond count by 1e9, and the two scalings cancel in every ratio, so a
ratio of durations `a`/`b` (in nanoseconds) is modelled as the exact rational
`a / b`; `0.0 / 0.0` is NaN and `x / 0.0` (x > 0) is +inf, exactly as in
IEEE 754.  The theorems below only evaluate ratios with equal numerator and
denominator, where IEEE division is exact, so the model is faithful there. -/
inductive F64 where
  | val (q : ℚ)
  | nan
  | inf
deriving DecidableEq, Repr

/-- `stats.duration.as_secs_f64() / other.as_secs_f64()` for nanosecond
durations. -/
def durationRatio (a b : Nat) : F64 :=
  if b = 0 then (if a = 0 then .nan else .inf) else .val ((a : ℚ) / (b : ℚ))

/-- `DerivedStats` from timing.rs. -/
structure DerivedStats where
  duration : Nat
  count : Nat
  duration_relative_to_parent : Option F64
  duration_relative_to_root : Option F64
deriving DecidableEq, Repr

/-- The payload-transformation closure passed to `transform_payloads` by
`create_timing_tree`. -/
def deriveStats (node : SpanTreeNode (Option DirectStats)) : Option DerivedStats :=
  node.payload.map (fun stats =>
    { duration := stats.duration
      count := stats.count
      duration_relative_to_parent := node.parent.bind (fun parent_node =>
        parent_node.payload.map (fun parent_stats =>
          durationRatio stats.duration parent_stats.duration))
      duration_relative_to_root := node.root.payload.map (fun root_stats =>
        durationRatio stats.duration root_stats.duration) })

/-- `AccumulatedTimings::create_timing_tree`: the tree-building step followed
by the derived-statistics transformation.  The source's `expect` (panic on a
tree-construction error) is modelled as error propagation; by C6 it never
fires. -/
def create_timing_tree (stats : List (SpanPath × DirectStats)) :
    Except SpanTreeError (SpanTree (Option DerivedStats)) :=
  (createTimingTreeStep stats).map (fun t => t.transform_payloads deriveStats)

/-- C9 counterexample: a run whose root span accumulated an exactly zero
duration (entered and exited at the same timestamp).  The root node carries a
direct measurement (`Some`), yet its `duration_relative_to_root` is NaN
(`0.0 / 0.0`), not `1.0` as the claim asserts for "every possible recorded
duration of the root, including a zero duration". -/
theorem C9_counterexample :
    (create_timing_tree [(SpanPath.mk ["run"], DirectStats.mk 0 1)]).map
        (fun t => t.rootNode.payload.map (fun ds => ds.duration_relative_to_root))
      = .ok (some (some F64.nan))
    ∧ F64.nan ≠ F64.val 1 := by
  constructor
  · rfl
  · decide

/-- C9 (amended): in every tree produced by `create_timing_tree` (from a
non-empty map with distinct keys), whenever the root node carries a direct
measurement its `duration_relative_to_root` is `Some`: it equals `1.0`
whenever the root's recorded duration is nonzero, and is NaN (`0.0/0.0`) in
the degenerate zero-duration case; it is absent only when the root carries no
direct measurement. -/
theorem C9_amended (stats : List (SpanPath × DirectStats))
    (hne : stats ≠ []) (hnd : (akeys stats).Nodup) :
    ∃ t, create_timing_tree stats = .ok t ∧
      ∀ ds, t.rootNode.payload = some ds →
        (0 < ds.duration → ds.duration_relative_to_root = some (F64.val 1)) ∧
        (ds.duration = 0 → ds.duration_relative_to_root = some F64.nan) := by
  have hstep := createTimingTreeStep_eq_ok stats hne hnd
  obtain ⟨pr0, rest0, hsplit⟩ : ∃ a b, stats = a :: b := by
    cases stats with
    | nil => exact absurd rfl hne
    | cons a b => exact ⟨a, b, rfl⟩
  obtain ⟨ca, hca, -⟩ : ∃ ca, commonAncestorOfKeys stats = some ca ∧
      ∀ q ∈ stats, ca.span_names <+: q.1.span_names := by
    rw [hsplit]
    rcases commonAncestorOfKeys_cons pr0 rest0 with ⟨ca, h1, h2⟩
    exact ⟨ca, h1, h2⟩
  have hMnd := buildMapC_nodup stats ca hca hnd
  set L := (sortPairsByNames (buildMapC stats)).map Prod.fst with hL
  set V := (sortPairsByNames (buildMapC stats)).map Prod.snd with hV
  have hLlt : List.Pairwise
      (fun a b : SpanPath => namesCmp a.span_names b.span_names = .lt) L :=
    sortPairs_pairwise_lt (buildMapC stats) hMnd
  refine ⟨(SpanTree.mk L V).transform_payloads deriveStats, ?_, ?_⟩
  · show (createTimingTreeStep stats).map
      (fun t => t.transform_payloads deriveStats) = _
    rw [hstep]
    rfl
  · have htrans := transform_payloads_of_sorted (Option DirectStats) (Option DerivedStats)
      (SpanTree.mk L V) deriveStats hLlt
    have hL0 : 0 < L.length := by
      have hmem : ca ∈ akeys (buildMapC stats) := ca_mem_buildMapC stats ca hca
      have hne2 : buildMapC stats ≠ [] := by
        intro habs
        rw [habs] at hmem
        cases hmem
      have hlen : L.length = (buildMapC stats).length := by
        rw [hL, List.length_map]
        exact (sortPairs_perm (buildMapC stats)).length_eq
      rw [hlen]
      exact List.length_pos.mpr hne2
    intro ds hds
    have hpay0 : ((SpanTree.mk L V).transform_payloads deriveStats).rootNode.payload
        = deriveStats ⟨L, V, 0⟩ := by
      show ((SpanTree.mk L V).transform_payloads deriveStats).payloads.getD 0 default
        = deriveStats ⟨L, V, 0⟩
      rw [htrans.2]
      have h0 : 0 < ((List.range L.length).map
          (fun i => deriveStats ⟨L, V, i⟩)).length := by
        rw [List.length_map, List.length_range]
        exact hL0
      rw [List.getD_eq_getElem _ _ h0]
      rw [List.getElem_map]
      simp [List.getElem_range]
    rw [hpay0] at hds
    simp only [deriveStats] at hds
    rcases ho : (SpanTreeNode.mk L V 0 : SpanTreeNode (Option DirectStats)).payload
      with _ | s
    · rw [ho] at hds
      cases hds
    · rw [ho] at hds
      have hroot : (SpanTreeNode.mk L V 0 :
          SpanTreeNode (Option DirectStats)).root.payload = some s := ho
      simp only [Option.map_some'] at hds
      injection hds with hds2
      subst hds2
      constructor
      · intro hpos
        have hpos2 : 0 < s.duration := hpos
        show ((SpanTreeNode.mk L V 0 :
            SpanTreeNode (Option DirectStats)).root.payload).map
          (fun rs => durationRatio s.duration rs.duration) = some (F64.val 1)
        rw [hroot]
        show some (durationRatio s.duration s.duration) = some (F64.val 1)
        rw [durationRatio, if_neg (by omega : ¬ s.duration = 0)]
        have hq : ((s.duration : ℚ)) ≠ 0 := Nat.cast_ne_zero.mpr (by omega)
        rw [div_self hq]
      · intro h0
        have h02 : s.duration = 0 := h0
        show ((SpanTreeNode.mk L V 0 :
            SpanTreeNode (Option DirectStats)).root.payload).map
          (fun rs => durationRatio s.duration rs.duration) = some F64.nan
        rw [hroot]
        show some (durationRatio s.duration s.duration) = some F64.nan
        rw [h02]
        rfl

/-- Witness for C9 (amended) at a concrete one-entry map with nonzero root
duration. -/
theorem C9_amended_witness :
    ∃ t, create_timing_tree [(SpanPath.mk ["run"], DirectStats.mk 5 1)] = .ok t ∧
      ∀ ds, t.rootNode.payload = some ds →
        (0 < ds.duration → ds.duration_relative_to_root = some (F64.val 1)) ∧
        (ds.duration = 0 → ds.duration_relative_to_root = some F64.nan) :=
  C9_amended [(SpanPath.mk ["run"], DirectStats.mk 5 1)] (by simp) (by simp [akeys])

/- ## TimingAccumulator (timing.rs) -/

/-- `TimingAccumulator` from timing.rs: completed per-path statistics and the
open-span enter timestamps (timestamps in nanoseconds). -/
structure TimingAccumulator where
  completed_statistics : List (SpanPath × DirectStats)
  enter_timestamps : List (SpanPath × Int)
deriving DecidableEq, Repr

/-- `TimingAccumulator::new`. -/
def TimingAccumulator.new : TimingAccumulator := ⟨[], []⟩

/-- `HashMap::remove` on an association list (drops the entry for the key). -/
def aremove {β : Type} : List (SpanPath × β) → SpanPath → List (SpanPath × β)
  | [], _ => []
  | (k, v) :: rest, key => if k = key then rest else (k, v) :: aremove rest key

/-- The `completed.entry(path).or_default(); combine_mut(..)` pattern of
`exit_span`: fold the new stats into the entry, inserting a default first if
absent. -/
def acombine (m : List (SpanPath × DirectStats)) (key : SpanPath) (s : DirectStats) :
    List (SpanPath × DirectStats) :=
  match alookup m key with
  | some _ => m.map (fun pr => if pr.1 = key then (pr.1, pr.2.combine_mut s) else pr)
  | none => m ++ [(key, (DirectStats.mk 0 0).combine_mut s)]

/-- `TimingAccumulator::enter_span`: fails (leaving the state untouched, as
the Rust entry API does) if the path is already active, otherwise records the
timestamp.  The `&mut self` method is modelled as returning the updated state
next to the `Result`. -/
def TimingAccumulator.enter_span (a : TimingAccumulator) (path : SpanPath)
    (timestamp : Int) : TimingAccumulator × Except String Unit :=
  match alookup a.enter_timestamps path with
  | some _ =>
    (a, .error "tried to create new span that is already active (not closed)")
  | none =>
    ({ a with enter_timestamps := a.enter_timestamps ++ [(path, timestamp)] }, .ok ())

/-- `TimingAccumulator::exit_span`: fails if the path is not active,
otherwise removes it and folds `|close - enter|` into the completed
statistics. -/
def TimingAccumulator.exit_span (a : TimingAccumulator) (path : SpanPath)
    (timestamp_close : Int) : TimingAccumulator × Except String Unit :=
  match alookup a.enter_timestamps path with
  | none => (a, .error "found close event for span that is not currently active")
  | some timestamp_enter =>
    ({ completed_statistics :=
        acombine a.completed_statistics path
          (DirectStats.from_single_duration (timestamp_close - timestamp_enter).natAbs),
       enter_timestamps := aremove a.enter_timestamps path }, .ok ())

/-- `TimingAccumulator::has_active_spans`. -/
def TimingAccumulator.has_active_spans (a : TimingAccumulator) : Bool :=
  !a.enter_timestamps.isEmpty

/-- `TimingAccumulator::collect_completed_statistics`. -/
def TimingAccumulator.collect_completed_statistics (a : TimingAccumulator) :
    List (SpanPath × DirectStats) :=
  a.completed_statistics

/-- C4: a fresh accumulator, after `enter(p, t0); exit(p, t1)`, holds exactly
`{p: {duration: |t1 - t0|, count: 1}}`; repeating with `t2, t3` accumulates
`{p: {duration: |t1 - t0| + |t3 - t2|, count: 2}}`, every call succeeding. -/
theorem C4_theorem : ∀ (p : SpanPath) (t0 t1 t2 t3 : Int),
    ((TimingAccumulator.new.enter_span p t0).2 = .ok ())
    ∧ (((TimingAccumulator.new.enter_span p t0).1.exit_span p t1).2 = .ok ())
    ∧ (((TimingAccumulator.new.enter_span p t0).1.exit_span p t1).1.collect_completed_statistics
        = [(p, DirectStats.mk (t1 - t0).natAbs 1)])
    ∧ (((((TimingAccumulator.new.enter_span p t0).1.exit_span p t1).1.enter_span p t2).2 = .ok ())
    ∧ ((((TimingAccumulator.new.enter_span p t0).1.exit_span p t1).1.enter_span p t2).1.exit_span
          p t3).2 = .ok ()
    ∧ ((((TimingAccumulator.new.enter_span p t0).1.exit_span p t1).1.enter_span p t2).1.exit_span
          p t3).1.collect_completed_statistics
        = [(p, DirectStats.mk ((t1 - t0).natAbs + (t3 - t2).natAbs) 2)]) := by
  intro p t0 t1 t2 t3
  simp [TimingAccumulator.new, TimingAccumulator.enter_span, TimingAccumulator.exit_span,
    TimingAccumulator.collect_completed_statistics, alookup, aremove, acombine,
    DirectStats.combine_mut, DirectStats.from_single_duration]

/-- C10: accumulator errors are atomic.  If `enter_span p ts` fails because
`p` is already active, the accumulator is returned unchanged and the
previously stored enter timestamp survives; if `exit_span p ts` fails because
`p` is not active, the state (both maps) is unchanged. -/
theorem C10_theorem :
    (∀ (a : TimingAccumulator) (p : SpanPath) (ts ts0 : Int),
      alookup a.enter_timestamps p = some ts0 →
        (a.enter_span p ts).1 = a
        ∧ (a.enter_span p ts).2 ≠ .ok ()
        ∧ alookup (a.enter_span p ts).1.enter_timestamps p = some ts0)
    ∧ (∀ (a : TimingAccumulator) (p : SpanPath) (ts : Int),
      alookup a.enter_timestamps p = none →
        (a.exit_span p ts).1 = a ∧ (a.exit_span p ts).2 ≠ .ok ()) := by
  constructor
  · intro a p ts ts0 h
    rw [TimingAccumulator.enter_span, h]
    exact ⟨rfl, by simp, h⟩
  · intro a p ts h
    rw [TimingAccumulator.exit_span, h]
    exact ⟨rfl, by simp⟩

/-- Witness for C10 at a concrete state: one open span `["a"]` entered at 5;
re-entering it fails atomically, and exiting the absent path `["b"]` fails
atomically. -/
theorem C10_theorem_witness :
    (alookup (TimingAccumulator.mk [] [(⟨["a"]⟩, 5)]).enter_timestamps ⟨["a"]⟩ = some 5
      ∧ ((TimingAccumulator.mk [] [(⟨["a"]⟩, 5)]).enter_span ⟨["a"]⟩ 7).1
          = TimingAccumulator.mk [] [(⟨["a"]⟩, 5)]
      ∧ ((TimingAccumulator.mk [] [(⟨["a"]⟩, 5)]).enter_span ⟨["a"]⟩ 7).2 ≠ .ok ()
      ∧ alookup ((TimingAccumulator.mk [] [(⟨["a"]⟩, 5)]).enter_span ⟨["a"]⟩ 7).1.enter_timestamps
          ⟨["a"]⟩ = some 5)
    ∧ (alookup (TimingAccumulator.mk [] [(⟨["a"]⟩, 5)]).enter_timestamps ⟨["b"]⟩ = none
      ∧ ((TimingAccumulator.mk [] [(⟨["a"]⟩, 5)]).exit_span ⟨["b"]⟩ 7).1
          = TimingAccumulator.mk [] [(⟨["a"]⟩, 5)]
      ∧ ((TimingAccumulator.mk [] [(⟨["a"]⟩, 5)]).exit_span ⟨["b"]⟩ 7).2 ≠ .ok ()) := by
  have h1 : alookup (TimingAccumulator.mk [] [(⟨["a"]⟩, 5)]).enter_timestamps ⟨["a"]⟩
      = some 5 := by rfl
  have h2 : alookup (TimingAccumulator.mk [] [(⟨["a"]⟩, 5)]).enter_timestamps ⟨["b"]⟩
      = none := by rfl
  have he := C10_theorem.1 (TimingAccumulator.mk [] [(⟨["a"]⟩, 5)]) ⟨["a"]⟩ 7 5 h1
  have hx := C10_theorem.2 (TimingAccumulator.mk [] [(⟨["a"]⟩, 5)]) ⟨["b"]⟩ 7 h2
  exact ⟨⟨h1, he.1, he.2.1, he.2.2⟩, ⟨h2, hx.1, hx.2⟩⟩

/- ## Records and the timing extractor (lib.rs, timing.rs) -/

/-- `RecordKind` from lib.rs. -/
inductive RecordKind where
  | SpanEnter
  | SpanExit
  | Event
deriving DecidableEq, Repr

/-- `Span` from lib.rs.  `fields` models the span's JSON object restricted to
the u64-valued entries; the only access the embedded code performs is
`fields().pointer("/step_index").and_then(as_u64)`, which becomes an
association-list lookup. -/
structure Span where
  name : String
  fields : List (String × Nat)
deriving DecidableEq, Repr

/-- Lookup in a span's field list (the `pointer("/step_index")` access). -/
def afield : List (String × Nat) → String → Option Nat
  | [], _ => none
  | (k, v) :: rest, key => if k = key then some v else afield rest key

/-- `Record` from lib.rs, restricted to the fields the timing extractor
consults (level, message and record-level fields are never read by the
embedded code paths).  Timestamps are nanoseconds since some epoch. -/
structure Record where
  target : String
  span : Option Span
  spans : Option (List Span)
  kind : RecordKind
  timestamp : Int
  thread_id : String
deriving DecidableEq, Repr

/-- `Record::create_span_path`: names of the entered spans, with the span
being exited appended for exit records (failing if an exit record carries no
span). -/
def Record.create_span_path (r : Record) : Except String SpanPath :=
  let span_names := (r.spans.getD []).map Span.name
  match r.kind with
  | .SpanEnter | .Event => .ok ⟨span_names⟩
  | .SpanExit =>
    match r.span with
    | some sp => .ok ⟨span_names ++ [sp.name]⟩
    | none => .error "No span in exit record"

/-- `AccumulatedTimings` from timing.rs (span_stats as an association list). -/
structure AccumulatedTimings where
  span_stats : List (SpanPath × DirectStats)
deriving DecidableEq, Repr

/-- `AccumulatedStepTimings` from timing.rs. -/
structure AccumulatedStepTimings where
  timings : AccumulatedTimings
  step_index : Nat
deriving DecidableEq, Repr

/-- `AccumulatedTimingSeries` from timing.rs. -/
structure AccumulatedTimingSeries where
  steps : List AccumulatedStepTimings
  intransient_timings : AccumulatedTimings
deriving DecidableEq, Repr

/-- The record loop of `visit_dynamecs_step_span`: consume records until the
step span's own exit record (matching thread, span name `"step"`, target
`"dynamecs_app"`, and reconstructed path equal to the step path) is folded
into the accumulator, propagating accumulator errors; returns the final
accumulator and the unconsumed records. -/
def stepLoop (step_thread : String) (step_path : SpanPath) :
    TimingAccumulator → List Record → Except String (TimingAccumulator × List Record)
  | acc, [] => .ok (acc, [])
  | acc, record :: rest =>
    if record.thread_id = step_thread then
      match record.span with
      | some span =>
        match record.kind with
        | .SpanEnter =>
          match record.create_span_path with
          | .error e => .error e
          | .ok p =>
            match acc.enter_span p record.timestamp with
            | (_, .error e) => .error e
            | (acc2, .ok ()) => stepLoop step_thread step_path acc2 rest
        | .SpanExit =>
          match record.create_span_path with
          | .error e => .error e
          | .ok span_path =>
            match acc.exit_span span_path record.timestamp with
            | (_, .error e) => .error e
            | (acc2, .ok ()) =>
              if span.name = "step" ∧ record.target = "dynamecs_app" ∧ span_path = step_path
              then .ok (acc2, rest)
              else stepLoop step_thread step_path acc2 rest
        | .Event => stepLoop step_thread step_path acc rest
      | none => stepLoop step_thread step_path acc rest
    else stepLoop step_thread step_path acc rest

/-- `visit_dynamecs_step_span`: enter the step span into a fresh accumulator,
read the `step_index` field, run the record loop, and emit `none` instead of
a step when spans remain active at the step boundary. -/
def visit_dynamecs_step_span (step_new_record : Record) (remaining_records : List Record) :
    Except String (Option AccumulatedStepTimings × List Record) :=
  match step_new_record.create_span_path with
  | .error e => .error e
  | .ok step_path =>
    match TimingAccumulator.new.enter_span step_path step_new_record.timestamp with
    | (_, .error e) => .error e
    | (accumulator, .ok ()) =>
      match step_new_record.span.bind (fun sp => afield sp.fields "step_index") with
      | none => .error "step span does not have step_index field"
      | some step_index =>
        match stepLoop step_new_record.thread_id step_path accumulator remaining_records with
        | .error e => .error e
        | .ok (acc2, rest) =>
          if acc2.has_active_spans then .ok (none, rest)
          else .ok (some ⟨⟨acc2.collect_completed_statistics⟩, step_index⟩, rest)

/-- The record loop of `visit_dynamecs_run_span`, with explicit fuel so that
it evaluates by kernel reduction.  Every iteration consumes at least one
record, so `fuel = records.length` always suffices; the out-of-fuel arm is
unreachable under that choice and is marked by a distinguished error. -/
def runLoop (run_thread : String) :
    Nat → List Record → TimingAccumulator → List AccumulatedStepTimings →
    Except String AccumulatedTimingSeries
  | _, [], acc, steps =>
    .ok ⟨steps, ⟨acc.collect_completed_statistics⟩⟩
  | 0, _ :: _, _, _ => .error "out of fuel"
  | fuel + 1, record :: rest, acc, steps =>
    if record.thread_id = run_thread then
      match record.span with
      | some span =>
        if span.name = "step" ∧ record.target = "dynamecs_app" ∧ record.kind = .SpanEnter then
          match visit_dynamecs_step_span record rest with
          | .error e => .error e
          | .ok (ostep, rest2) => runLoop run_thread fuel rest2 acc (steps ++ ostep.toList)
        else if record.kind = .SpanEnter then
          match record.create_span_path with
          | .error e => .error e
          | .ok p =>
            match acc.enter_span p record.timestamp with
            | (_, .error e) => .error e
            | (acc2, .ok ()) => runLoop run_thread fuel rest acc2 steps
        else if record.kind = .SpanExit then
          match record.create_span_path with
          | .error e => .error e
          | .ok p =>
            match acc.exit_span p record.timestamp with
            | (_, .error e) => .error e
            | (acc2, .ok ()) =>
              if span.name = "run" ∧ record.target = "dynamecs_app" then
                .ok ⟨steps, ⟨acc2.collect_completed_statistics⟩⟩
              else runLoop run_thread fuel rest acc2 steps
        else runLoop run_thread fuel rest acc steps
      | none => runLoop run_thread fuel rest acc steps
    else runLoop run_thread fuel rest acc steps

/-- `visit_dynamecs_run_span`: enter the run span into the intransient
accumulator, then scan the remaining records (fuel: their number). -/
def visit_dynamecs_run_span (run_new_record : Record) (remaining_records : List Record) :
    Except String AccumulatedTimingSeries :=
  match run_new_record.create_span_path with
  | .error e => .error e
  | .ok p =>
    match TimingAccumulator.new.enter_span p run_new_record.timestamp with
    | (_, .error e) => .error e
    | (acc, .ok ()) =>
      runLoop run_new_record.thread_id remaining_records.length remaining_records acc []

/-- `find_and_visit_dynamecs_run_span`: skip records until the first
span-enter named `"run"` with target `"dynamecs_app"`. -/
def find_and_visit_dynamecs_run_span : List Record → Except String AccumulatedTimingSeries
  | [] => .error "Could not find new event for run span of dynamecs among records"
  | record :: rest =>
    match record.span with
    | some span =>
      if span.name = "run" ∧ record.target = "dynamecs_app" ∧ record.kind = .SpanEnter then
        visit_dynamecs_run_span record rest
      else find_and_visit_dynamecs_run_span rest
    | none => find_and_visit_dynamecs_run_span rest

/-- `extract_step_timings`. -/
def extract_step_timings (records : List Record) : Except String AccumulatedTimingSeries :=
  find_and_visit_dynamecs_run_span records

/- ## C2: the run-span scan's stop condition -/

/-- The `run` span used by the C2 scenario. -/
def c2runSpan : Span := ⟨"run", []⟩

/-- An unrelated span open while the nested run exit is seen. -/
def c2tailSpan : Span := ⟨"tail", []⟩

/-- Enter of the outer `run` span (path `run`). -/
def c2r0 : Record := ⟨"dynamecs_app", some c2runSpan, some [c2runSpan], .SpanEnter, 0, "t"⟩

/-- Enter of a nested span also named `run` (path `run > run`). -/
def c2r1 : Record := ⟨"dynamecs_app", some c2runSpan, some [c2runSpan, c2runSpan], .SpanEnter, 10, "t"⟩

/-- Exit of the nested `run` span: reconstructed path `run > run`, which
differs from the outer run's path `run`. -/
def c2r2 : Record := ⟨"dynamecs_app", some c2runSpan, some [c2runSpan], .SpanExit, 20, "t"⟩

/-- A later span enter that the scan should still consume if it had not
stopped at `c2r2`. -/
def c2r3 : Record := ⟨"app", some c2tailSpan, some [c2runSpan, c2tailSpan], .SpanEnter, 30, "t"⟩

/-- Matching exit for `c2r3`. -/
def c2r4 : Record := ⟨"app", some c2tailSpan, some [c2runSpan], .SpanExit, 40, "t"⟩

/-- C2 counterexample: the scan stops at the FIRST span-exit named `"run"`
with target `"dynamecs_app"` on the run's thread, even though its
reconstructed path `run > run` differs from the run span's own path `run`:
the result on the full stream equals the result on the stream truncated right
after that exit, the later `tail` span is never accumulated, and the series
is returned with the outer run still open. -/
theorem C2_counterexample :
    visit_dynamecs_run_span c2r0 [c2r1, c2r2, c2r3, c2r4]
      = .ok ⟨[], ⟨[(⟨["run", "run"]⟩, ⟨10, 1⟩)]⟩⟩
    ∧ visit_dynamecs_run_span c2r0 [c2r1, c2r2, c2r3, c2r4]
      = visit_dynamecs_run_span c2r0 [c2r1, c2r2]
    ∧ c2r0.create_span_path = .ok ⟨["run"]⟩
    ∧ c2r2.create_span_path = .ok ⟨["run", "run"]⟩
    ∧ (⟨["run", "run"]⟩ : SpanPath) ≠ ⟨["run"]⟩ := by
  refine ⟨rfl, rfl, rfl, rfl, by decide⟩

/-- C2 amended: while scanning inside the run span, the loop stops exactly
when it sees a span-exit record on the run's thread whose span name is
`"run"` and whose target is `"dynamecs_app"`, after folding that exit into
the intransient accumulator; the reconstructed span path is NOT consulted.
Part 1: on any such record the result does not depend on the remaining
records (it equals the result of processing that record as the very last
one).  Part 2: any other span-exit on the run's thread whose exit succeeds
lets the scan continue with the updated accumulator. -/
theorem C2_amended :
    (∀ (thread : String) (fuel : Nat) (r : Record) (rest : List Record)
       (acc : TimingAccumulator) (steps : List AccumulatedStepTimings) (sp : Span),
      r.thread_id = thread → r.span = some sp → r.kind = .SpanExit →
      sp.name = "run" → r.target = "dynamecs_app" →
      runLoop thread (fuel + 1) (r :: rest) acc steps = runLoop thread 1 [r] acc steps)
    ∧ (∀ (thread : String) (fuel : Nat) (r : Record) (rest : List Record)
       (acc acc2 : TimingAccumulator) (steps : List AccumulatedStepTimings)
       (sp : Span) (p : SpanPath),
      r.thread_id = thread → r.span = some sp → r.kind = .SpanExit →
      ¬(sp.name = "run" ∧ r.target = "dynamecs_app") →
      r.create_span_path = .ok p →
      acc.exit_span p r.timestamp = (acc2, .ok ()) →
      runLoop thread (fuel + 1) (r :: rest) acc steps = runLoop thread fuel rest acc2 steps) := by
  constructor
  · intro thread fuel r rest acc steps sp hth hsp hk hname htgt
    subst hth
    obtain ⟨tgt, rsp, rspans, k, ts, tid⟩ := r
    simp only at hsp hk htgt
    subst hsp
    subst hk
    subst htgt
    simp [runLoop, hname]
  · intro thread fuel r rest acc acc2 steps sp p hth hsp hk hnotrun hcp hex
    subst hth
    obtain ⟨tgt, rsp, rspans, k, ts, tid⟩ := r
    simp only at hsp hk hcp hex hnotrun
    subst hsp
    subst hk
    simp [runLoop, hcp, hex, hnotrun]

/-- Witness for C2 amended, instantiated at the concrete records of the
counterexample scenario: the nested `run` exit stops the scan regardless of
the two pending `tail` records, and the `tail` exit (a non-`run` exit) lets
the scan continue. -/
theorem C2_amended_witness :
    (c2r2.thread_id = "t" ∧ c2r2.span = some c2runSpan ∧ c2r2.kind = .SpanExit
      ∧ c2runSpan.name = "run" ∧ c2r2.target = "dynamecs_app"
      ∧ runLoop "t" 3 [c2r2, c2r3, c2r4]
          (TimingAccumulator.mk [] [(⟨["run", "run"]⟩, 10)]) []
        = runLoop "t" 1 [c2r2] (TimingAccumulator.mk [] [(⟨["run", "run"]⟩, 10)]) [])
    ∧ (c2r4.thread_id = "t" ∧ c2r4.span = some c2tailSpan ∧ c2r4.kind = .SpanExit
      ∧ ¬(c2tailSpan.name = "run" ∧ c2r4.target = "dynamecs_app")
      ∧ c2r4.create_span_path = .ok ⟨["run", "tail"]⟩
      ∧ (TimingAccumulator.mk [] [(⟨["run", "tail"]⟩, 30)]).exit_span ⟨["run", "tail"]⟩
          c2r4.timestamp
        = (TimingAccumulator.mk [(⟨["run", "tail"]⟩, ⟨10, 1⟩)] [], .ok ())
      ∧ runLoop "t" 5 [c2r4] (TimingAccumulator.mk [] [(⟨["run", "tail"]⟩, 30)]) []
        = runLoop "t" 4 [] (TimingAccumulator.mk [(⟨["run", "tail"]⟩, ⟨10, 1⟩)] []) []) := by
  refine ⟨⟨rfl, rfl, rfl, rfl, rfl, ?_⟩, ⟨rfl, rfl, rfl, by decide, rfl, rfl, ?_⟩⟩
  · exact C2_amended.1 "t" 2 c2r2 [c2r3, c2r4]
      (TimingAccumulator.mk [] [(⟨["run", "run"]⟩, 10)]) [] c2runSpan rfl rfl rfl rfl rfl
  · exact C2_amended.2 "t" 4 c2r4 []
      (TimingAccumulator.mk [] [(⟨["run", "tail"]⟩, 30)])
      (TimingAccumulator.mk [(⟨["run", "tail"]⟩, ⟨10, 1⟩)] []) [] c2tailSpan
      ⟨["run", "tail"]⟩ rfl rfl rfl (by decide) rfl rfl

/- ## C5: incomplete steps are dropped, not errors -/

/-- C5: (1) whenever the step loop finishes (its matching exit reached or the
record stream exhausted) with active spans remaining in the step's
accumulator, `visit_dynamecs_step_span` returns `Ok(None)` together with the
unconsumed records — not an error; (2) the run-span scan consumes such an
`Ok(None)` by simply continuing with an UNCHANGED step list and intransient
accumulator, so the incomplete step is excluded from the series and
extraction of the rest of the run proceeds. -/
theorem C5_theorem :
    (∀ (stepRec : Record) (records : List Record) (step_path : SpanPath)
       (acc0 acc2 : TimingAccumulator) (idx : Nat) (rest : List Record),
      stepRec.create_span_path = .ok step_path →
      TimingAccumulator.new.enter_span step_path stepRec.timestamp = (acc0, .ok ()) →
      (stepRec.span.bind fun sp => afield sp.fields "step_index") = some idx →
      stepLoop stepRec.thread_id step_path acc0 records = .ok (acc2, rest) →
      acc2.has_active_spans = true →
      visit_dynamecs_step_span stepRec records = .ok (none, rest))
    ∧ (∀ (thread : String) (fuel : Nat) (r : Record) (rest rest2 : List Record)
       (acc : TimingAccumulator) (steps : List AccumulatedStepTimings) (sp : Span),
      r.thread_id = thread → r.span = some sp → sp.name = "step" →
      r.target = "dynamecs_app" → r.kind = .SpanEnter →
      visit_dynamecs_step_span r rest = .ok (none, rest2) →
      runLoop thread (fuel + 1) (r :: rest) acc steps = runLoop thread fuel rest2 acc steps) := by
  constructor
  · intro stepRec records step_path acc0 acc2 idx rest hcp hen hidx hloop hact
    simp [visit_dynamecs_step_span, hcp, hen, hidx, hloop, hact]
  · intro thread fuel r rest rest2 acc steps sp hth hsp hname htgt hk hvisit
    subst hth
    obtain ⟨tgt, rsp, rspans, k, ts, tid⟩ := r
    simp only at hsp hk htgt hvisit
    subst hsp
    subst hk
    subst htgt
    simp [runLoop, hname, hvisit]

/-- The `step` span used by the C5 witness, carrying `step_index = 0`. -/
def c5stepSpan : Span := ⟨"step", [("step_index", 0)]⟩

/-- Enter of the step span (path `run > step`) on thread `"t"`. -/
def c5stepRec : Record :=
  ⟨"dynamecs_app", some c5stepSpan, some [c2runSpan, c5stepSpan], .SpanEnter, 0, "t"⟩

/-- Witness for C5: a step span whose record stream ends immediately (the
step is never exited) yields `Ok(None)` with no records left, and the run
loop consumes that step record without adding a step or touching its
accumulator. -/
theorem C5_theorem_witness :
    (c5stepRec.create_span_path = .ok ⟨["run", "step"]⟩
      ∧ TimingAccumulator.new.enter_span ⟨["run", "step"]⟩ c5stepRec.timestamp
        = (TimingAccumulator.mk [] [(⟨["run", "step"]⟩, 0)], .ok ())
      ∧ (c5stepRec.span.bind fun sp => afield sp.fields "step_index") = some 0
      ∧ stepLoop c5stepRec.thread_id ⟨["run", "step"]⟩
          (TimingAccumulator.mk [] [(⟨["run", "step"]⟩, 0)]) []
        = .ok (TimingAccumulator.mk [] [(⟨["run", "step"]⟩, 0)], [])
      ∧ (TimingAccumulator.mk [] [(⟨["run", "step"]⟩, 0)]).has_active_spans = true
      ∧ visit_dynamecs_step_span c5stepRec [] = .ok (none, []))
    ∧ (c5stepRec.thread_id = "t" ∧ c5stepRec.span = some c5stepSpan
      ∧ c5stepSpan.name = "step" ∧ c5stepRec.target = "dynamecs_app"
      ∧ c5stepRec.kind = .SpanEnter
      ∧ runLoop "t" 1 [c5stepRec] TimingAccumulator.new []
        = runLoop "t" 0 [] TimingAccumulator.new []) := by
  refine ⟨⟨rfl, rfl, rfl, rfl, rfl, ?_⟩, ⟨rfl, rfl, rfl, rfl, rfl, ?_⟩⟩
  · exact C5_theorem.1 c5stepRec [] ⟨["run", "step"]⟩
      (TimingAccumulator.mk [] [(⟨["run", "step"]⟩, 0)])
      (TimingAccumulator.mk [] [(⟨["run", "step"]⟩, 0)]) 0 [] rfl rfl rfl rfl rfl
  · exact C5_theorem.2 "t" 0 c5stepRec [] [] TimingAccumulator.new [] c5stepSpan
      rfl rfl rfl rfl rfl rfl
